import Mathlib

/-!
Verification of the Fig-Reporting-App ingestion/normalization pipeline.

Shallow embedding of `src/services/storageService.ts` and
`src/services/weatherService.ts`.  JavaScript strings are modelled as
`List Char`; JavaScript numbers appearing in the parsing pipeline are
modelled as `ℚ` with `none : Option ℚ` standing for `NaN` (the code only
inspects NaN-ness and rounds to integers, so `ℚ` is an exact model for
every finite decimal literal; non-finite literals such as `Infinity` are
outside the model).  Dates are compared through an order-isomorphic
integer key in place of `Date.getTime()` millisecond values.
-/

namespace FigApp

/-! ### Character and string primitives (JS `trim`, `split`, `includes`) -/

/-- JavaScript whitespace as it occurs in this pipeline (`String.prototype.trim`
strips it from both ends).  Modelled with the four common whitespace
characters. -/
def isWsCh (c : Char) : Bool := c = ' ' ∨ c = '\t' ∨ c = '\n' ∨ c = '\r'

/-- Model of `String.prototype.trim`. -/
def jsTrim (l : List Char) : List Char :=
  ((l.dropWhile isWsCh).reverse.dropWhile isWsCh).reverse

/-- Model of `s.split(' ')[0]`: everything before the first space character. -/
def beforeSpace : List Char → List Char
  | [] => []
  | c :: cs => if c = ' ' then [] else c :: beforeSpace cs

/-- Maximal prefix satisfying `p`, together with the rest. -/
def readWhile (p : Char → Bool) : List Char → List Char × List Char
  | [] => ([], [])
  | c :: cs =>
    if p c then
      let pr := readWhile p cs
      (c :: pr.1, pr.2)
    else ([], c :: cs)

/-- Maximal digit prefix (regex `\d*` with maximal munch). -/
def readDigits (l : List Char) : List Char × List Char := readWhile Char.isDigit l

/-- Model of `String.prototype.split(delim)` for a single-character
delimiter: `"".split(d) = [""]`, separators at the ends produce empty
fields. -/
def splitOnChar (d : Char) : List Char → List (List Char)
  | [] => [[]]
  | c :: cs =>
    match splitOnChar d cs with
    | [] => if c = d then [[], []] else [[c]]
    | h :: t => if c = d then [] :: h :: t else (c :: h) :: t

/-- Prepend a character to the first group of a nonempty group list. -/
def consHead (c : Char) : List (List Char) → List (List Char)
  | [] => [[c]]
  | h :: t => (c :: h) :: t

/-- Model of `input.split(/\r\n|\n/)`: split on `\n` or the pair `\r\n`;
a lone `\r` stays inside its line. -/
def splitLinesJs : List Char → List (List Char)
  | [] => [[]]
  | '\n' :: cs => [] :: splitLinesJs cs
  | '\r' :: '\n' :: cs => [] :: splitLinesJs cs
  | c :: cs => consHead c (splitLinesJs cs)

/-- Model of `String.prototype.includes(needle)`. -/
def includesSub (needle : List Char) : List Char → Bool
  | [] => needle.isPrefixOf ([] : List Char)
  | c :: cs => needle.isPrefixOf (c :: cs) || includesSub needle cs

/-- Numeric value of a digit character. -/
def digitVal (c : Char) : Nat := c.toNat - 48

/-- Value of a digit string, most significant digit first. -/
def charsToNat (l : List Char) : Nat := l.foldl (fun a c => a * 10 + digitVal c) 0

/-- The decimal digit character for `d < 10`. -/
def digitChar (d : Nat) : Char := Char.ofNat (48 + d)

/-- Decimal digit string of a natural number (model of JS number-to-string
for nonnegative integral values). -/
def natChars (n : Nat) : List Char :=
  if h : n < 10 then [digitChar n]
  else natChars (n / 10) ++ [digitChar (n % 10)]
  decreasing_by
    exact Nat.div_lt_self (by omega) (by omega)

/-- Decimal string of an integer (model of JS `${n}` template interpolation
for integral numbers). -/
def intChars (n : Int) : List Char :=
  if n < 0 then '-' :: natChars n.natAbs else natChars n.natAbs

/-- Model of `String.prototype.padStart(2, '0')`. -/
def pad2 (l : List Char) : List Char := List.replicate (2 - l.length) '0' ++ l

/-! ### Numeric coercion (`parseFloat`, `Math.round`, `parseValue`) -/

/-- Value of a fraction-digit string: `"25"` contributes `25/100`. -/
def fracVal (l : List Char) : ℚ := (charsToNat l : ℚ) / 10 ^ l.length

/-- Strip an optional leading sign, returning the sign value and the rest. -/
def splitSign (s : List Char) : ℚ × List Char :=
  match s with
  | [] => (1, [])
  | c :: cs => if c = '+' then (1, cs) else if c = '-' then (-1, cs) else (1, c :: cs)

/-- The multiplicative factor contributed by an optional exponent suffix:
`parseFloat` consumes `e`/`E`, an optional sign and at least one digit; a
malformed exponent is ignored (factor `1`), matching
`parseFloat("1e") = 1`. -/
def expFactor (l : List Char) : ℚ :=
  match l with
  | [] => 1
  | e :: rest =>
    if e = 'e' ∨ e = 'E' then
      let sr : Int × List Char :=
        match rest with
        | [] => (1, [])
        | c :: cs => if c = '+' then (1, cs) else if c = '-' then (-1, cs) else (1, c :: cs)
      let ds := readDigits sr.2
      if ds.1 = [] then 1 else (10 : ℚ) ^ (sr.1 * (charsToNat ds.1 : Int))
    else 1

/-- Model of JavaScript `parseFloat` on an already-trimmed string, over `ℚ`:
optional sign, then the longest prefix shaped `Digits [. Digits]` or
`. Digits`, then an optional exponent; trailing junk is ignored; `none`
models `NaN`.  (The float literal `Infinity` is outside the rational
model.) -/
def jsParseFloat (s : List Char) : Option ℚ :=
  let sg := splitSign s
  let ip := readDigits sg.2
  if ip.1 = [] then
    match ip.2 with
    | c :: r2 =>
      if c = '.' then
        let fp := readDigits r2
        if fp.1 = [] then none
        else some (sg.1 * fracVal fp.1 * expFactor fp.2)
      else none
    | [] => none
  else
    match ip.2 with
    | c :: r2 =>
      if c = '.' then
        let fp := readDigits r2
        some (sg.1 * ((charsToNat ip.1 : ℚ) + fracVal fp.1) * expFactor fp.2)
      else some (sg.1 * (charsToNat ip.1 : ℚ) * expFactor (c :: r2))
    | [] => some (sg.1 * (charsToNat ip.1 : ℚ) * expFactor [])

/-- Model of `Math.round`: round half toward positive infinity. -/
def jsRound (q : ℚ) : Int := ⌊q + 1/2⌋

/-- `parseValue` from `importFromCSV` (storageService.ts lines 133-137):
empty string coerces to `0`, otherwise `parseFloat`; `none` models the
`NaN` sentinel. -/
def parseValue (val : List Char) : Option ℚ :=
  if val = [] then some 0 else jsParseFloat val

/-! ### The Date Normalizer (`parseDate`, storageService.ts lines 57-104) -/

/-- The separator class: dash or slash. -/
def isSep (c : Char) : Bool := c = '-' ∨ c = '/'

/-- Match of `^(\d{4})[-\/](\d{1,2})[-\/](\d{1,2})$` returning
(year, month, day) digit groups. -/
def isoMatch (l : List Char) : Option (List Char × List Char × List Char) :=
  let y := readDigits l
  if y.1.length = 4 then
    match y.2 with
    | s1 :: r2 =>
      if isSep s1 then
        let m := readDigits r2
        if 1 ≤ m.1.length ∧ m.1.length ≤ 2 then
          match m.2 with
          | s2 :: r4 =>
            if isSep s2 then
              let d := readDigits r4
              if 1 ≤ d.1.length ∧ d.1.length ≤ 2 ∧ d.2 = [] then some (y.1, m.1, d.1)
              else none
            else none
          | [] => none
        else none
      else none
    | [] => none
  else none

/-- Match of `^(\d{1,2})[\/\-](\d{1,2})[\/\-](\d{2,4})$` returning
(day, month, year) digit groups. -/
def slashMatch (l : List Char) : Option (List Char × List Char × List Char) :=
  let d := readDigits l
  if 1 ≤ d.1.length ∧ d.1.length ≤ 2 then
    match d.2 with
    | s1 :: r2 =>
      if isSep s1 then
        let m := readDigits r2
        if 1 ≤ m.1.length ∧ m.1.length ≤ 2 then
          match m.2 with
          | s2 :: r4 =>
            if isSep s2 then
              let y := readDigits r4
              if 2 ≤ y.1.length ∧ y.1.length ≤ 4 ∧ y.2 = [] then some (d.1, m.1, y.1)
              else none
            else none
          | [] => none
        else none
      else none
    | [] => none
  else none

/-- Match of `^(\d{2})(\d{2})(\d{4})$` returning (day, month, year). -/
def compactMatch (l : List Char) : Option (List Char × List Char × List Char) :=
  let d := readDigits l
  if d.1.length = 8 ∧ d.2 = [] then
    some (d.1.take 2, (d.1.drop 2).take 2, d.1.drop 4)
  else none

/-- Gregorian leap-year rule (as implemented by the JS `Date` parser). -/
def isLeap (y : Nat) : Bool := (y % 4 = 0 ∧ y % 100 ≠ 0) ∨ y % 400 = 0

/-- Days in a month. -/
def daysInMonth (y m : Nat) : Nat :=
  if m = 2 then (if isLeap y then 29 else 28)
  else if m = 4 ∨ m = 6 ∨ m = 9 ∨ m = 11 then 30
  else 31

/-- Calendar validity of a `YYYY-MM-DD` string as checked by
`new Date(isoString)` (V8 rejects out-of-range month/day in the ISO
date-only format). -/
def validYMD (y m d : Nat) : Bool :=
  1 ≤ m ∧ m ≤ 12 ∧ 1 ≤ d ∧ d ≤ daysInMonth y m

/-- The Date Normalizer `parseDate` (storageService.ts lines 57-104):
three forms tried in order; only form 1 (ISO-like) performs the
`new Date` validity check. -/
def parseDate (rawDate : List Char) : Option (List Char) :=
  if rawDate = [] then none
  else
    let t := jsTrim rawDate
    let dp := beforeSpace t
    match isoMatch dp with
    | some ymd =>
      let iso := ymd.1 ++ '-' :: pad2 ymd.2.1 ++ '-' :: pad2 ymd.2.2
      if validYMD (charsToNat ymd.1) (charsToNat ymd.2.1) (charsToNat ymd.2.2)
      then some iso else none
    | none =>
      match slashMatch dp with
      | some dmy =>
        let y := if dmy.2.2.length = 2 then '2' :: '0' :: dmy.2.2 else dmy.2.2
        some (y ++ '-' :: pad2 dmy.2.1 ++ '-' :: pad2 dmy.1)
      | none =>
        match compactMatch dp with
        | some dmy => some (dmy.2.2 ++ '-' :: dmy.2.1 ++ '-' :: dmy.1)
        | none => none

/-- A canonical calendar-valid `YYYY-MM-DD` string: exactly ten characters,
dashes in place, all other characters digits, and the calendar validity
check passes. -/
def canonDate (l : List Char) : Bool :=
  match l with
  | [y1, y2, y3, y4, h1, m1, m2, h2, d1, d2] =>
    h1 = '-' ∧ h2 = '-' ∧ ([y1, y2, y3, y4, m1, m2, d1, d2].all Char.isDigit) ∧
      validYMD (charsToNat [y1, y2, y3, y4]) (charsToNat [m1, m2]) (charsToNat [d1, d2])
  | _ => false

/-- An integer key for canonical date strings, order-isomorphic (on
calendar dates) to the epoch-millisecond value `new Date(s).getTime()`
that the source uses for comparisons. -/
def dateVal (l : List Char) : Int :=
  match l with
  | [y1, y2, y3, y4, _, m1, m2, _, d1, d2] =>
    (charsToNat [y1, y2, y3, y4] : Int) * 10000 + charsToNat [m1, m2] * 100 + charsToNat [d1, d2]
  | _ => 0

/-- Model of `new Date(s).getTime()` restricted to the canonical dates the
store works with; `none` models `NaN` (an invalid date). -/
def jsTime (l : List Char) : Option Int :=
  if canonDate l then some (dateVal l) else none

/-! ### The Observation Store (storageService.ts lines 1-55) -/

/-- The persisted `Observation` record (types.ts); the transient
display-only `rain`/`tempMax` fields are never persisted and are omitted. -/
structure Observation where
  id : List Char
  date : List Char
  figs : Int
  bats : Int
  leaves : Int
deriving DecidableEq

/-- The sort comparator `(a, b) => new Date(b.date) - new Date(a.date)`:
`a` may be placed before `b` when the comparator is not positive (a `NaN`
difference is treated by the sort as zero). -/
def obsPrecede (a b : Observation) : Bool :=
  match jsTime a.date, jsTime b.date with
  | some ka, some kb => kb ≤ ka
  | _, _ => true

/-- Insert into a descending-sorted list (stable). -/
def insertObs (a : Observation) : List Observation → List Observation
  | [] => [a]
  | b :: bs => if obsPrecede a b then a :: b :: bs else b :: insertObs a bs

/-- The stable sort by date descending applied by the store on every read
and write. -/
def sortDesc : List Observation → List Observation
  | [] => []
  | a :: as => insertObs a (sortDesc as)

/-- The persisted slot: the JSON array stored under the storage key,
modelled as the list of records it holds. -/
abbrev State := List Observation

/-- `getObservations` (lines 5-20): read the slot and sort by date
descending.  (The corrupt-slot fallback to `[]` is outside this model:
states are well-parsed record lists.) -/
def getObservations (s : State) : List Observation := sortDesc s

/-- Replace the first record whose date equals `obs.date` by `obs` with
the stored record's original id (models `findIndex` followed by
`updated[existingIndex] = { ...obs, id: current[existingIndex].id }`);
identity when no date matches. -/
def replaceFirst (obs : Observation) : List Observation → List Observation
  | [] => []
  | o :: os =>
    if o.date = obs.date then { obs with id := o.id } :: os
    else o :: replaceFirst obs os

/-- `saveObservation` (lines 22-41): upsert by date, re-sort, and return
the list that is written wholesale to the slot. -/
def saveObservation (obs : Observation) (s : State) : List Observation :=
  let current := getObservations s
  if current.any (fun o => o.date = obs.date) then sortDesc (replaceFirst obs current)
  else sortDesc (obs :: current)

/-- `deleteObservation` (lines 43-48): drop the record with the given id
and write the remainder. -/
def deleteObservation (id : List Char) (s : State) : List Observation :=
  (getObservations s).filter (fun o => o.id ≠ id)

/-! ### CSV export (lines 50-55) -/

/-- The export header row `Date,Figs,Bats,Leaves`. -/
def headerChars : List Char :=
  ['D', 'a', 't', 'e', ',', 'F', 'i', 'g', 's', ',', 'B', 'a', 't', 's', ',', 'L', 'e', 'a', 'v', 'e', 's']

/-- One export row: the template `${d.date},${d.figs},${d.bats},${d.leaves}`. -/
def exportLine (o : Observation) : List Char :=
  o.date ++ ',' :: intChars o.figs ++ ',' :: intChars o.bats ++ ',' :: intChars o.leaves

/-- `[header, ...rows].join('\n')`. -/
def joinNl : List (List Char) → List Char
  | [] => []
  | [l] => l
  | l :: ls => l ++ '\n' :: joinNl ls

/-- `exportToCSV` (lines 50-55). -/
def exportToCSV (data : List Observation) : List Char :=
  joinNl (headerChars :: data.map exportLine)

/-! ### The Tabular Record Parser (`importFromCSV`, lines 106-168) -/

/-- An accepted row before id assignment. -/
structure RowRec where
  date : List Char
  figs : Int
  bats : Int
  leaves : Int
deriving DecidableEq

/-- The leaves value of a split row: the fourth field if present, coerced
with the `NaN`-to-`0` fallback of line 156, `0` when absent. -/
def leavesOf (parts : List (List Char)) : Int :=
  if 4 ≤ parts.length then
    match parseValue (parts.getD 3 []) with
    | some l => jsRound l
    | none => 0
  else 0

/-- The body of the `importFromCSV` row loop (lines 117-159): trim the
line, split on the delimiter, trim each field, and accept when there are
at least three fields, the date normalizes, and figs and bats coerce to
valid numbers. -/
def parseRow (delim : Char) (rawLine : List Char) : Option RowRec :=
  let line := jsTrim rawLine
  if line = [] then none
  else
    let parts := (splitOnChar delim line).map jsTrim
    if 3 ≤ parts.length then
      match parseDate (parts.getD 0 []), parseValue (parts.getD 1 []), parseValue (parts.getD 2 []) with
      | some d, some f, some b => some ⟨d, jsRound f, jsRound b, leavesOf parts⟩
      | _, _, _ => none
    else none

/-- The accepted rows of an input text, in input order: trim the whole
input, split into lines, auto-detect the delimiter from the first
non-blank line, and run the row loop. -/
def importRows (input : List Char) : List RowRec :=
  let t := jsTrim input
  if t = [] then []
  else
    let lines := splitLinesJs t
    let firstLine := (lines.find? (fun l => !(jsTrim l).isEmpty)).getD []
    let delim := if firstLine.contains '\t' then '\t' else ','
    lines.filterMap (parseRow delim)

/-- Attach the freshly generated ids (`Math.random().toString(36)...`),
modelled by an id supply indexed by acceptance order. -/
def assignIds (idGen : Nat → List Char) : Nat → List RowRec → List Observation
  | _, [] => []
  | i, r :: rs => ⟨idGen i, r.date, r.figs, r.bats, r.leaves⟩ :: assignIds idGen (i + 1) rs

/-- `importFromCSV` (lines 106-168): the returned list (sorted by date
descending when nonempty; `sortDesc [] = []`). -/
def importFromCSV (idGen : Nat → List Char) (input : List Char) : List Observation :=
  sortDesc (assignIds idGen 0 (importRows input))

/-- The effect of `importFromCSV` on the persisted slot: the slot is
replaced only when at least one row was accepted (lines 162-166). -/
def importApply (idGen : Nat → List Char) (input : List Char) (s : State) : State :=
  let obs := importFromCSV idGen input
  if obs = [] then s else obs

/-! ### The public mutating operations as a state machine -/

/-- A public mutating operation on the persisted slot. -/
inductive Op where
  | save (obs : Observation)
  | del (id : List Char)
  | imp (idGen : Nat → List Char) (input : List Char)

/-- One operation's effect on the slot. -/
def applyOp : Op → State → State
  | Op.save obs, s => saveObservation obs s
  | Op.del id, s => deleteObservation id s
  | Op.imp g inp, s => importApply g inp s

/-- A sequence of operations applied in order. -/
def runOps : List Op → State → State
  | [], s => s
  | op :: ops, s => runOps ops (applyOp op s)

/-- The store invariant: no two records share a date. -/
def DatesNodup (s : List Observation) : Prop := (s.map Observation.date).Nodup

instance : DecidablePred DatesNodup := fun s =>
  inferInstanceAs (Decidable ((s.map Observation.date).Nodup))

/-! ### The Sheet Import Adapter (`fetchGoogleSheet`, lines 170-217) -/

/-- The character class `[a-zA-Z0-9-_]` of the spreadsheet-id capture. -/
def idCh (c : Char) : Bool := c.isAlphanum ∨ c = '-' ∨ c = '_'

/-- First match of the regex `\/d\/([a-zA-Z0-9-_]+)`: scan for `/d/`
followed by at least one id character; the capture is the maximal id-char
run. -/
def extractId : List Char → Option (List Char)
  | [] => none
  | c :: cs =>
    if c = '/' then
      match cs with
      | 'd' :: '/' :: rest =>
        let pr := readWhile idCh rest
        if pr.1 = [] then extractId cs else some pr.1
      | _ => extractId cs
    else extractId cs

/-- First match of `[#&?]gid=(\d+)`. -/
def extractGid (l : List Char) : Option (List Char) :=
  match l with
  | [] => none
  | c :: cs =>
    if c = '#' ∨ c = '&' ∨ c = '?' then
      match cs with
      | 'g' :: 'i' :: 'd' :: '=' :: rest =>
        let pr := readWhile Char.isDigit rest
        if pr.1 = [] then extractGid cs else some pr.1
      | _ => extractGid cs
    else extractGid cs

/-- The substring tested by `url.includes('output=csv')`. -/
def outputCsvChars : List Char := ['o', 'u', 't', 'p', 'u', 't', '=', 'c', 's', 'v']

/-- The invalid-URL failure reason (line 180). -/
def invalidUrlMsg : List Char :=
  "Invalid Google Sheet URL. Could not find Spreadsheet ID.".data

/-- The constructed export URL (line 188). -/
def buildExportUrl (id gid : List Char) : List Char :=
  "https://docs.google.com/spreadsheets/d/".data ++ id
    ++ "/export?format=csv&gid=".data ++ gid

/-- The URL-resolution phase of `fetchGoogleSheet` (lines 171-189), which
runs before any network call: pass the URL through when it contains
`output=csv`, otherwise extract the spreadsheet id (throwing the
invalid-URL error when absent) and build the export URL with the
extracted or default gid. -/
def computeFetchUrl (url : List Char) : Except (List Char) (List Char) :=
  if includesSub outputCsvChars url then Except.ok url
  else
    match extractId url with
    | none => Except.error invalidUrlMsg
    | some id => Except.ok (buildExportUrl id ((extractGid url).getD ['0']))

/-- The network request issued by `fetchGoogleSheet`, if any: `none` means
the adapter failed before any fetch. -/
def sheetRequest (url : List Char) : Option (List Char) :=
  match computeFetchUrl url with
  | Except.error _ => none
  | Except.ok u => some u

end FigApp

/-! ### The Weather Range Fetcher (weatherService.ts) -/

namespace Weather

/-- One day of weather data (types.ts `WeatherData`); dates are modelled
as day numbers (order-isomorphic to the ISO date strings compared via
`Date.getTime()` in the source). -/
structure WeatherData where
  date : Int
  tempMax : ℚ
  rain : ℚ
deriving DecidableEq

/-- The two endpoints. -/
inductive Leg where
  | archive
  | forecast
deriving DecidableEq

/-- One HTTP query: an endpoint and the requested inclusive day range. -/
structure Query where
  leg : Leg
  startD : Int
  endD : Int
deriving DecidableEq

/-- The outcome of one leg's `fetch` (together with reading the body):
`ok l` is a resolved response with `res.ok` and parsed daily series `l`;
`httpError` is a resolved response with a non-success status (`!res.ok`);
`netError` is a rejected promise (a transport error, or a throw while
reading the body). -/
inductive LegResult where
  | ok (data : List WeatherData)
  | httpError
  | netError
deriving DecidableEq

/-- The data a resolved leg contributes: the parsed series when `res.ok`,
the empty sequence on a non-success status (and on a rejection, which the
single-leg branches turn into `[]` through the outer catch). -/
def legParse : LegResult → List WeatherData
  | LegResult.ok l => l
  | _ => []

/-- Whether a leg outcome is a promise rejection (which the straddling
branch's `Promise.all` propagates to the outer catch). -/
def isNetError : LegResult → Bool
  | LegResult.netError => true
  | _ => false

/-- The queries `fetchWeatherHistory` issues (lines 16-89), by branch:
recent range → forecast only; historical range → archive only; straddling
range → archive for `[start, cutoff]` plus, guarded by
`nextDay ≤ end`, forecast for `[cutoff+1, end]`. -/
def queriesIssued (today startD endD : Int) : List Query :=
  let cutoff := today - 7
  if cutoff < startD then [⟨Leg.forecast, startD, endD⟩]
  else if endD ≤ cutoff then [⟨Leg.archive, startD, endD⟩]
  else
    ⟨Leg.archive, startD, cutoff⟩ ::
      (if cutoff + 1 ≤ endD then [⟨Leg.forecast, cutoff + 1, endD⟩] else [])

/-- `fetchWeatherHistory` (lines 16-89).  The single-leg branches degrade
any failure to the empty sequence (`!res.ok` returns `[]`, and a
rejection is caught by the outer try/catch).  The straddling branch
awaits both legs jointly (`Promise.all`): a rejection of either issued
leg rejects the joint await and the outer catch returns `[]` for the
whole fetch, while non-success statuses are filtered per leg
(`archiveRes.ok`, `forecastRes.ok`) and the surviving contributions are
concatenated archive-then-forecast; when the forecast leg is not issued
its slot holds the resolved `null` promise, which contributes nothing
and cannot reject. -/
def fetchWeatherHistory (oracle : Query → LegResult)
    (today startD endD : Int) : List WeatherData :=
  let cutoff := today - 7
  if cutoff < startD then legParse (oracle ⟨Leg.forecast, startD, endD⟩)
  else if endD ≤ cutoff then legParse (oracle ⟨Leg.archive, startD, endD⟩)
  else
    let aRes := oracle ⟨Leg.archive, startD, cutoff⟩
    if cutoff + 1 ≤ endD then
      let fRes := oracle ⟨Leg.forecast, cutoff + 1, endD⟩
      if isNetError aRes || isNetError fRes then []
      else legParse aRes ++ legParse fRes
    else
      if isNetError aRes then [] else legParse aRes

end Weather

/-! ### Auxiliary value notions used by the statements -/

namespace FigApp

/-- Absence of newline characters. -/
def noNl (l : List Char) : Prop := '\n' ∉ l ∧ '\r' ∉ l

/-- A nonnegative-integer-literal field. -/
def natLit (l : List Char) : Bool := !l.isEmpty && l.all Char.isDigit

/-- An integer-literal field: digits with an optional minus sign. -/
def intLit (l : List Char) : Bool :=
  match l with
  | '-' :: ds => natLit ds
  | _ => natLit l

/-- The integer value of an integer-literal field. -/
def intVal (l : List Char) : Int :=
  match l with
  | '-' :: ds => -(charsToNat ds : Int)
  | _ => (charsToNat l : Int)

/-- The value tuple of a stored record. -/
def obsVals (o : Observation) : List Char × Int × Int × Int :=
  (o.date, o.figs, o.bats, o.leaves)

/-- The value tuple of an accepted row. -/
def rowVals (r : RowRec) : List Char × Int × Int × Int :=
  (r.date, r.figs, r.bats, r.leaves)

/-- A well-formed import row for the round-trip property: a canonical
calendar-valid date and three integer-literal numeric fields. -/
def wfFields (x : List Char × List Char × List Char × List Char) : Bool :=
  canonDate x.1 && intLit x.2.1 && intLit x.2.2.1 && intLit x.2.2.2

/-- The CSV text of a four-field row `d,figs,bats,leaves`. -/
def assembleRow (x : List Char × List Char × List Char × List Char) : List Char :=
  x.1 ++ ',' :: (x.2.1 ++ ',' :: (x.2.2.1 ++ ',' :: x.2.2.2))

/-- The value tuple a well-formed CSV row denotes, following the spec's
reading: the date string and the integer values of the numeric fields. -/
def wfVal (x : List Char × List Char × List Char × List Char) :
    List Char × Int × Int × Int :=
  (x.1, intVal x.2.1, intVal x.2.2.1, intVal x.2.2.2)

/-- Render a value tuple in the canonical export row format. -/
def renderVals (v : List Char × Int × Int × Int) : List Char :=
  v.1 ++ ',' :: (intChars v.2.1 ++ ',' :: (intChars v.2.2.1 ++ ',' :: intChars v.2.2.2))

/-- The record a well-formed CSV row is parsed into. -/
def wfRowRec (x : List Char × List Char × List Char × List Char) : RowRec :=
  ⟨x.1, intVal x.2.1, intVal x.2.2.1, intVal x.2.2.2⟩

/-- A degenerate id supply, used to instantiate theorems on concrete data. -/
def constId : Nat → List Char := fun _ => ['x']

/-- Concrete record and store used to instantiate the upsert theorem. -/
def wRec : Observation :=
  ⟨['n'], ['2', '0', '2', '3', '-', '1', '0', '-', '0', '2'], 1, 2, 3⟩

def wStore : State :=
  [⟨['a'], ['2', '0', '2', '3', '-', '1', '0', '-', '0', '2'], 9, 9, 9⟩,
   ⟨['b'], ['2', '0', '2', '3', '-', '1', '0', '-', '0', '1'], 4, 5, 6⟩]

/-- A URL that contains `output=csv` but no extractable spreadsheet id. -/
def passthroughUrl : List Char := "https://example.com/data?output=csv".data

/-- A URL with neither `output=csv` nor a spreadsheet id. -/
def badSheetUrl : List Char := "https://example.com/nope".data

end FigApp

namespace Weather

/-- An oracle whose every response has a non-success status, used to
instantiate the weather theorems. -/
def errOracle : Query → LegResult := fun _ => LegResult.httpError

/-- Archive returns one day of data; forecast suffers a transport error. -/
def archiveDataOracle : Query → LegResult := fun q =>
  match q.leg with
  | Leg.archive => LegResult.ok [⟨90, 0, 0⟩]
  | Leg.forecast => LegResult.netError

/-- Archive suffers a transport error; forecast returns one day of data. -/
def forecastDataOracle : Query → LegResult := fun q =>
  match q.leg with
  | Leg.archive => LegResult.netError
  | Leg.forecast => LegResult.ok [⟨94, 0, 0⟩]

/-- Archive sees a non-success status; forecast returns one day of data. -/
def mixedOracle : Query → LegResult := fun q =>
  match q.leg with
  | Leg.archive => LegResult.httpError
  | Leg.forecast => LegResult.ok [⟨94, 0, 0⟩]

end Weather

/-! ## Lemmas -/

namespace FigApp

/-- Digit characters are not whitespace. -/
theorem isDigit_not_ws {c : Char} (h : c.isDigit = true) : isWsCh c = false := by
  simp only [isWsCh, decide_eq_false_iff_not, not_or]
  refine ⟨?_, ?_, ?_, ?_⟩ <;> rintro rfl <;> simp [Char.isDigit] at h

/-- Digit characters are not the space character. -/
theorem isDigit_ne_space {c : Char} (h : c.isDigit = true) : c ≠ ' ' := by
  rintro rfl; simp [Char.isDigit] at h

theorem dropWhile_eq_self_of_head {p : Char → Bool} :
    ∀ {l : List Char}, (∀ c, l.head? = some c → p c = false) → l.dropWhile p = l := by
  intro l h
  cases l with
  | nil => rfl
  | cons c cs => simp [List.dropWhile_cons, h c rfl]

/-- `jsTrim` is the identity when neither end is whitespace. -/
theorem jsTrim_eq_self {l : List Char}
    (h1 : ∀ c, l.head? = some c → isWsCh c = false)
    (h2 : ∀ c, l.getLast? = some c → isWsCh c = false) :
    jsTrim l = l := by
  unfold jsTrim
  rw [dropWhile_eq_self_of_head h1]
  rw [dropWhile_eq_self_of_head (by simpa using h2)]
  simp

/-- `jsTrim` is the identity on whitespace-free strings. -/
theorem jsTrim_eq_self_all {l : List Char} (h : ∀ c ∈ l, isWsCh c = false) :
    jsTrim l = l :=
  jsTrim_eq_self
    (fun c hc => h c (by cases l <;> simp_all))
    (fun c hc => h c (List.mem_of_mem_getLast? hc))

/-- `beforeSpace` is the identity on space-free strings. -/
theorem beforeSpace_eq_self : ∀ {l : List Char}, (∀ c ∈ l, c ≠ ' ') → beforeSpace l = l := by
  intro l
  induction l with
  | nil => intro _; rfl
  | cons c cs ih =>
    intro h
    simp only [beforeSpace, if_neg (h c (by simp))]
    rw [ih (fun x hx => h x (by simp [hx]))]

theorem readWhile_cons_pos {p : Char → Bool} {c : Char} (cs : List Char) (h : p c = true) :
    readWhile p (c :: cs) = ((c :: (readWhile p cs).1, (readWhile p cs).2)) := by
  simp [readWhile, h]

theorem readWhile_cons_neg {p : Char → Bool} {c : Char} (cs : List Char) (h : p c = false) :
    readWhile p (c :: cs) = (([], c :: cs)) := by
  simp [readWhile, h]

/-- `readWhile` consumes exactly a satisfying block when the next character
fails the predicate. -/
theorem readWhile_append {p : Char → Bool} :
    ∀ {a : List Char} {b : Char} {r : List Char},
      (∀ c ∈ a, p c = true) → p b = false →
      readWhile p (a ++ b :: r) = ((a, b :: r)) := by
  intro a
  induction a with
  | nil => intro b r _ hb; simpa using readWhile_cons_neg r hb
  | cons c cs ih =>
    intro b r ha hb
    have hc : p c = true := ha c (by simp)
    rw [List.cons_append, readWhile_cons_pos _ hc, ih (fun x hx => ha x (by simp [hx])) hb]

/-- `readWhile` consumes everything when all characters satisfy `p`. -/
theorem readWhile_all {p : Char → Bool} :
    ∀ {a : List Char}, (∀ c ∈ a, p c = true) → readWhile p a = ((a, [])) := by
  intro a
  induction a with
  | nil => intro _; rfl
  | cons c cs ih =>
    intro ha
    rw [readWhile_cons_pos _ (ha c (by simp)), ih (fun x hx => ha x (by simp [hx]))]

theorem splitOnChar_ne_nil {d : Char} : ∀ {l : List Char}, splitOnChar d l ≠ [] := by
  intro l
  cases l with
  | nil => simp [splitOnChar]
  | cons c cs =>
    simp only [splitOnChar]
    rcases h : splitOnChar d cs with _ | ⟨h1, t1⟩ <;> by_cases hc : c = d <;> simp [hc]

/-- Splitting a delimiter-free string yields one field. -/
theorem splitOnChar_of_not_mem {d : Char} :
    ∀ {l : List Char}, d ∉ l → splitOnChar d l = [l] := by
  intro l
  induction l with
  | nil => intro _; rfl
  | cons c cs ih =>
    intro h
    have hc : c ≠ d := fun e => h (by simp [e])
    have := ih (fun e => h (by simp [e]))
    simp only [splitOnChar, this]
    simp [hc]

/-- Splitting peels off the first delimiter-free field. -/
theorem splitOnChar_append {d : Char} :
    ∀ {a r : List Char}, d ∉ a → splitOnChar d (a ++ d :: r) = a :: splitOnChar d r := by
  intro a
  induction a with
  | nil =>
    intro r _
    simp only [List.nil_append, splitOnChar]
    rcases h : splitOnChar d r with _ | ⟨h1, t1⟩
    · exact absurd h splitOnChar_ne_nil
    · simp
  | cons c cs ih =>
    intro r h
    have hc : c ≠ d := fun e => h (by simp [e])
    have hrec := @ih r (fun e => h (by simp [e]))
    rw [List.cons_append]
    simp only [splitOnChar]
    rw [hrec]
    simp [hc]

theorem splitLinesJs_single : ∀ {a : List Char}, noNl a → splitLinesJs a = [a] := by
  intro a
  induction a with
  | nil => intro _; rfl
  | cons c cs ih =>
    intro h
    have hn : c ≠ '\n' := fun e => h.1 (by simp [e])
    have hr : c ≠ '\r' := fun e => h.2 (by simp [e])
    have ht : splitLinesJs cs = [cs] := ih ⟨fun e => h.1 (by simp [e]), fun e => h.2 (by simp [e])⟩
    cases c with
    | mk v hv =>
      rw [splitLinesJs.eq_def]
      split
      · simp_all
      · simp_all
      · simp_all
      · rename_i heq
        injection heq with e1 e2
        subst e1; subst e2
        rw [ht]; rfl

theorem splitLinesJs_append :
    ∀ {a r : List Char}, noNl a → splitLinesJs (a ++ '\n' :: r) = a :: splitLinesJs r := by
  intro a
  induction a with
  | nil => intro r _; rfl
  | cons c cs ih =>
    intro r h
    have hn : c ≠ '\n' := fun e => h.1 (by simp [e])
    have hr : c ≠ '\r' := fun e => h.2 (by simp [e])
    have ht := @ih r ⟨fun e => h.1 (by simp [e]), fun e => h.2 (by simp [e])⟩
    rw [List.cons_append, splitLinesJs.eq_def]
    split
    · simp_all
    · simp_all
    · simp_all
    · rename_i heq
      injection heq with e1 e2
      subst e1; subst e2
      rw [ht]; rfl

/-! ### Decimal-digit strings and their values -/

theorem digit_ne_plus {c : Char} (h : c.isDigit = true) : c ≠ '+' := by
  rintro rfl; simp [Char.isDigit] at h

theorem digit_ne_minus {c : Char} (h : c.isDigit = true) : c ≠ '-' := by
  rintro rfl; simp [Char.isDigit] at h

theorem digit_ne_dot {c : Char} (h : c.isDigit = true) : c ≠ '.' := by
  rintro rfl; simp [Char.isDigit] at h

theorem digitVal_digitChar {d : Nat} (h : d < 10) : digitVal (digitChar d) = d := by
  interval_cases d <;> decide

theorem isDigit_digitChar {d : Nat} (h : d < 10) : (digitChar d).isDigit = true := by
  interval_cases d <;> decide

theorem charsToNat_append_singleton (a : List Char) (c : Char) :
    charsToNat (a ++ [c]) = charsToNat a * 10 + digitVal c := by
  simp [charsToNat, List.foldl_append]

theorem natChars_ne_nil (n : Nat) : natChars n ≠ [] := by
  unfold natChars
  split <;> simp

theorem natChars_all_digit (n : Nat) : ∀ c ∈ natChars n, c.isDigit = true := by
  induction n using Nat.strong_induction_on with
  | _ n ih =>
    unfold natChars
    split
    · rename_i h
      intro c hc
      simp at hc
      subst hc
      exact isDigit_digitChar h
    · rename_i h
      intro c hc
      rcases List.mem_append.mp hc with hm | hm
      · exact ih (n / 10) (Nat.div_lt_self (by omega) (by omega)) c hm
      · simp at hm
        subst hm
        exact isDigit_digitChar (Nat.mod_lt _ (by omega))

theorem charsToNat_natChars (n : Nat) : charsToNat (natChars n) = n := by
  induction n using Nat.strong_induction_on with
  | _ n ih =>
    unfold natChars
    split
    · rename_i h
      simp [charsToNat, digitVal_digitChar h]
    · rename_i h
      rw [charsToNat_append_singleton,
        ih (n / 10) (Nat.div_lt_self (by omega) (by omega)),
        digitVal_digitChar (Nat.mod_lt _ (by omega))]
      omega

/-! ### `parseFloat` on integer literals -/

theorem expFactor_nil : expFactor [] = 1 := rfl

/-- `parseFloat` of a nonempty all-digit string is its numeric value. -/
theorem jsParseFloat_digits {a : List Char} (hne : a ≠ [])
    (hd : ∀ c ∈ a, c.isDigit = true) :
    jsParseFloat a = some (charsToNat a) := by
  rcases a with _ | ⟨c, cs⟩
  · exact absurd rfl hne
  have hc := hd c (by simp)
  have hsg : splitSign (c :: cs) = (1, c :: cs) := by
    simp [splitSign, digit_ne_plus hc, digit_ne_minus hc]
  have hrd : readDigits (c :: cs) = ((c :: cs, [])) := readWhile_all hd
  unfold jsParseFloat
  rw [hsg]
  simp only [hrd]
  simp [expFactor_nil]

/-- `parseFloat` of a minus sign followed by digits is the negated value. -/
theorem jsParseFloat_neg_digits {a : List Char} (hne : a ≠ [])
    (hd : ∀ c ∈ a, c.isDigit = true) :
    jsParseFloat ('-' :: a) = some (-(charsToNat a : ℚ)) := by
  have hsg : splitSign ('-' :: a) = (-1, a) := by simp [splitSign]
  have hrd : readDigits a = ((a, [])) := readWhile_all hd
  unfold jsParseFloat
  rw [hsg]
  simp only [hrd]
  rcases a with _ | ⟨c, cs⟩
  · exact absurd rfl hne
  · simp [expFactor_nil]

/-- `Math.round` is the identity on integers. -/
theorem jsRound_intCast (n : Int) : jsRound (n : ℚ) = n := by
  unfold jsRound
  rw [add_comm, Int.floor_add_int]
  norm_num

/-- `parseValue` on an integer literal: accepted, and rounding returns the
integer value. -/
theorem parseValue_intLit {l : List Char} (h : intLit l = true) :
    ∃ q, parseValue l = some q ∧ jsRound q = intVal l := by
  rcases l with _ | ⟨c, cs⟩
  · simp [intLit, natLit] at h
  by_cases hm : c = '-'
  · subst hm
    simp only [intLit] at h
    have hne : cs ≠ [] := by
      simp [natLit] at h
      rcases cs with _ | _
      · simp at h
      · simp
    have hd : ∀ x ∈ cs, x.isDigit = true := by
      simp [natLit] at h
      exact fun x hx => h.2 x hx
    refine ⟨-(charsToNat cs : ℚ), ?_, ?_⟩
    · simp [parseValue, jsParseFloat_neg_digits hne hd]
    · rw [show (-(charsToNat cs : ℚ)) = ((-(charsToNat cs : Int) : Int) : ℚ) by push_cast; ring]
      rw [jsRound_intCast]
      rfl
  · have h' : natLit (c :: cs) = true := by
      rcases hcs : c :: cs with _ | ⟨c2, cs2⟩
      · simp at hcs
      · rw [← hcs]
        unfold intLit at h
        split at h
        · rename_i heq
          injection heq with e1 _
          exact absurd e1 hm
        · exact h
    have hd : ∀ x ∈ c :: cs, x.isDigit = true := by
      simp [natLit] at h'
      intro x hx
      rcases List.mem_cons.mp hx with rfl | hx
      · exact h'.1
      · exact h'.2 x hx
    refine ⟨(charsToNat (c :: cs) : ℚ), ?_, ?_⟩
    · simp [parseValue, jsParseFloat_digits (by simp) hd]
    · rw [show ((charsToNat (c :: cs) : ℚ)) = (((charsToNat (c :: cs) : Int) : Int) : ℚ) by push_cast; ring]
      rw [jsRound_intCast]
      unfold intVal
      split
      · rename_i heq
        injection heq with e1 _
        exact absurd e1 hm
      · rfl

/-! ### Evaluating the Date Normalizer on shaped inputs -/

theorem sep_not_digit {c : Char} (h : isSep c = true) : c.isDigit = false := by
  simp only [isSep, decide_eq_true_eq] at h
  rcases h with rfl | rfl <;> decide

theorem sep_not_ws {c : Char} (h : isSep c = true) : isWsCh c = false := by
  simp only [isSep, decide_eq_true_eq] at h
  rcases h with rfl | rfl <;> decide

theorem sep_ne_space {c : Char} (h : isSep c = true) : c ≠ ' ' := by
  simp only [isSep, decide_eq_true_eq] at h
  rcases h with rfl | rfl <;> decide

theorem digit_ne {c x : Char} (h : c.isDigit = true) (hx : x.isDigit = false) : c ≠ x := by
  rintro rfl; rw [hx] at h; cases h

theorem isoMatch_eval {y m d : List Char} {s1 s2 : Char}
    (hy : ∀ c ∈ y, c.isDigit = true) (hy4 : y.length = 4)
    (hm : ∀ c ∈ m, c.isDigit = true) (hm1 : 1 ≤ m.length) (hm2 : m.length ≤ 2)
    (hd : ∀ c ∈ d, c.isDigit = true) (hd1 : 1 ≤ d.length) (hd2 : d.length ≤ 2)
    (hs1 : isSep s1 = true) (hs2 : isSep s2 = true) :
    isoMatch (y ++ s1 :: m ++ s2 :: d) = some (y, m, d) := by
  have r1 : readDigits (y ++ s1 :: (m ++ s2 :: d)) = ((y, s1 :: (m ++ s2 :: d))) :=
    readWhile_append hy (sep_not_digit hs1)
  have r2 : readDigits (m ++ s2 :: d) = ((m, s2 :: d)) :=
    readWhile_append hm (sep_not_digit hs2)
  have r3 : readDigits d = ((d, [])) := readWhile_all hd
  unfold isoMatch
  rw [show y ++ s1 :: m ++ s2 :: d = y ++ s1 :: (m ++ s2 :: d) from by simp]
  rw [r1]
  simp [r2, r3, hy4, hs1, hs2, hm1, hm2, hd1, hd2]

theorem isoMatch_none {l : List Char} (a rest : List Char)
    (h : readDigits l = ((a, rest))) (hlen : a.length ≠ 4) : isoMatch l = none := by
  unfold isoMatch
  rw [h]
  simp [hlen]

theorem slashMatch_eval {d m y : List Char} {s1 s2 : Char}
    (hd : ∀ c ∈ d, c.isDigit = true) (hd1 : 1 ≤ d.length) (hd2 : d.length ≤ 2)
    (hm : ∀ c ∈ m, c.isDigit = true) (hm1 : 1 ≤ m.length) (hm2 : m.length ≤ 2)
    (hy : ∀ c ∈ y, c.isDigit = true) (hy1 : 2 ≤ y.length) (hy2 : y.length ≤ 4)
    (hs1 : isSep s1 = true) (hs2 : isSep s2 = true) :
    slashMatch (d ++ s1 :: m ++ s2 :: y) = some (d, m, y) := by
  have r1 : readDigits (d ++ s1 :: (m ++ s2 :: y)) = ((d, s1 :: (m ++ s2 :: y))) :=
    readWhile_append hd (sep_not_digit hs1)
  have r2 : readDigits (m ++ s2 :: y) = ((m, s2 :: y)) :=
    readWhile_append hm (sep_not_digit hs2)
  have r3 : readDigits y = ((y, [])) := readWhile_all hy
  unfold slashMatch
  rw [show d ++ s1 :: m ++ s2 :: y = d ++ s1 :: (m ++ s2 :: y) from by simp]
  rw [r1]
  simp [r2, r3, hd1, hd2, hs1, hs2, hm1, hm2, hy1, hy2]

/-- `parseDate` on `YYYY(sep)M(sep)D` shaped input: pad, validity-check,
emit. -/
theorem parseDate_iso {y m d : List Char} {s1 s2 : Char}
    (hy : ∀ c ∈ y, c.isDigit = true) (hy4 : y.length = 4)
    (hm : ∀ c ∈ m, c.isDigit = true) (hm1 : 1 ≤ m.length) (hm2 : m.length ≤ 2)
    (hd : ∀ c ∈ d, c.isDigit = true) (hd1 : 1 ≤ d.length) (hd2 : d.length ≤ 2)
    (hs1 : isSep s1 = true) (hs2 : isSep s2 = true) :
    parseDate (y ++ s1 :: m ++ s2 :: d) =
      (if validYMD (charsToNat y) (charsToNat m) (charsToNat d)
       then some (y ++ '-' :: pad2 m ++ '-' :: pad2 d) else none) := by
  have hall : ∀ c ∈ y ++ s1 :: m ++ s2 :: d, c.isDigit = true ∨ isSep c = true := by
    intro c hc
    rw [List.mem_append] at hc
    rcases hc with hc | hc
    · rw [List.mem_append] at hc
      rcases hc with hc | hc
      · exact Or.inl (hy c hc)
      rw [List.mem_cons] at hc
      rcases hc with rfl | hc
      · exact Or.inr hs1
      · exact Or.inl (hm c hc)
    · rw [List.mem_cons] at hc
      rcases hc with rfl | hc
      · exact Or.inr hs2
      · exact Or.inl (hd c hc)
  have hws : jsTrim (y ++ s1 :: m ++ s2 :: d) = y ++ s1 :: m ++ s2 :: d :=
    jsTrim_eq_self_all (by
      intro c hc
      rcases hall c hc with h | h
      · exact isDigit_not_ws h
      · exact sep_not_ws h)
  have hsp : beforeSpace (y ++ s1 :: m ++ s2 :: d) = y ++ s1 :: m ++ s2 :: d :=
    beforeSpace_eq_self (by
      intro c hc
      rcases hall c hc with h | h
      · exact isDigit_ne_space h
      · exact sep_ne_space h)
  have hne : y ++ s1 :: m ++ s2 :: d ≠ [] := by
    rcases y with _ | _ <;> simp at hy4 ⊢
  have hiso := isoMatch_eval hy hy4 hm hm1 hm2 hd hd1 hd2 hs1 hs2
  unfold parseDate
  rw [if_neg hne]
  simp only [hws, hsp, hiso]

/-- `parseDate` on `D(sep)M(sep)Y` day-first input: no validity check; a
two-digit year is prefixed with `20` unconditionally. -/
theorem parseDate_slash {d m y : List Char} {s1 s2 : Char}
    (hd : ∀ c ∈ d, c.isDigit = true) (hd1 : 1 ≤ d.length) (hd2 : d.length ≤ 2)
    (hm : ∀ c ∈ m, c.isDigit = true) (hm1 : 1 ≤ m.length) (hm2 : m.length ≤ 2)
    (hy : ∀ c ∈ y, c.isDigit = true) (hy1 : 2 ≤ y.length) (hy2 : y.length ≤ 4)
    (hs1 : isSep s1 = true) (hs2 : isSep s2 = true) :
    parseDate (d ++ s1 :: m ++ s2 :: y) =
      some ((if y.length = 2 then '2' :: '0' :: y else y)
        ++ '-' :: pad2 m ++ '-' :: pad2 d) := by
  have hall : ∀ c ∈ d ++ s1 :: m ++ s2 :: y, c.isDigit = true ∨ isSep c = true := by
    intro c hc
    rw [List.mem_append] at hc
    rcases hc with hc | hc
    · rw [List.mem_append] at hc
      rcases hc with hc | hc
      · exact Or.inl (hd c hc)
      rw [List.mem_cons] at hc
      rcases hc with rfl | hc
      · exact Or.inr hs1
      · exact Or.inl (hm c hc)
    · rw [List.mem_cons] at hc
      rcases hc with rfl | hc
      · exact Or.inr hs2
      · exact Or.inl (hy c hc)
  have hws : jsTrim (d ++ s1 :: m ++ s2 :: y) = d ++ s1 :: m ++ s2 :: y :=
    jsTrim_eq_self_all (by
      intro c hc
      rcases hall c hc with h | h
      · exact isDigit_not_ws h
      · exact sep_not_ws h)
  have hsp : beforeSpace (d ++ s1 :: m ++ s2 :: y) = d ++ s1 :: m ++ s2 :: y :=
    beforeSpace_eq_self (by
      intro c hc
      rcases hall c hc with h | h
      · exact isDigit_ne_space h
      · exact sep_ne_space h)
  have hne : d ++ s1 :: m ++ s2 :: y ≠ [] := by
    rcases d with _ | _ <;> simp at hd1 ⊢
  have r1 : readDigits (d ++ s1 :: (m ++ s2 :: y)) = ((d, s1 :: (m ++ s2 :: y))) :=
    readWhile_append hd (sep_not_digit hs1)
  have hiso : isoMatch (d ++ s1 :: m ++ s2 :: y) = none := by
    refine isoMatch_none d (s1 :: (m ++ s2 :: y)) ?_ (by omega)
    rw [show d ++ s1 :: m ++ s2 :: y = d ++ s1 :: (m ++ s2 :: y) from by simp]
    exact r1
  have hslash := slashMatch_eval hd hd1 hd2 hm hm1 hm2 hy hy1 hy2 hs1 hs2
  unfold parseDate
  rw [if_neg hne]
  simp only [hws, hsp, hiso, hslash]

/-! ### Canonical date strings -/

/-- The characters of a canonical date are digits or dashes. -/
theorem canonDate_chars {l : List Char} (h : canonDate l = true) :
    ∀ c ∈ l, c.isDigit = true ∨ c = '-' := by
  rcases l with _ | ⟨y1, l⟩; · simp [canonDate] at h
  rcases l with _ | ⟨y2, l⟩; · simp [canonDate] at h
  rcases l with _ | ⟨y3, l⟩; · simp [canonDate] at h
  rcases l with _ | ⟨y4, l⟩; · simp [canonDate] at h
  rcases l with _ | ⟨h1, l⟩; · simp [canonDate] at h
  rcases l with _ | ⟨m1, l⟩; · simp [canonDate] at h
  rcases l with _ | ⟨m2, l⟩; · simp [canonDate] at h
  rcases l with _ | ⟨h2, l⟩; · simp [canonDate] at h
  rcases l with _ | ⟨d1, l⟩; · simp [canonDate] at h
  rcases l with _ | ⟨d2, l⟩; · simp [canonDate] at h
  rcases l with _ | ⟨c0, l⟩
  · simp only [canonDate, Bool.and_eq_true, decide_eq_true_eq, List.all_eq_true] at h
    intro c hc
    simp only [List.mem_cons, List.not_mem_nil, or_false] at hc
    obtain ⟨e1, e2, hdig, _⟩ := h
    rcases hc with rfl | rfl | rfl | rfl | rfl | rfl | rfl | rfl | rfl | rfl
    · exact Or.inl (hdig _ (by simp))
    · exact Or.inl (hdig _ (by simp))
    · exact Or.inl (hdig _ (by simp))
    · exact Or.inl (hdig _ (by simp))
    · exact Or.inr e1
    · exact Or.inl (hdig _ (by simp))
    · exact Or.inl (hdig _ (by simp))
    · exact Or.inr e2
    · exact Or.inl (hdig _ (by simp))
    · exact Or.inl (hdig _ (by simp))
  · simp [canonDate] at h

/-- Canonically-shaped valid dates are fixed points of the normalizer. -/
theorem canonFix {l : List Char} (h : canonDate l = true) : parseDate l = some l := by
  rcases l with _ | ⟨y1, l⟩; · simp [canonDate] at h
  rcases l with _ | ⟨y2, l⟩; · simp [canonDate] at h
  rcases l with _ | ⟨y3, l⟩; · simp [canonDate] at h
  rcases l with _ | ⟨y4, l⟩; · simp [canonDate] at h
  rcases l with _ | ⟨h1, l⟩; · simp [canonDate] at h
  rcases l with _ | ⟨m1, l⟩; · simp [canonDate] at h
  rcases l with _ | ⟨m2, l⟩; · simp [canonDate] at h
  rcases l with _ | ⟨h2, l⟩; · simp [canonDate] at h
  rcases l with _ | ⟨d1, l⟩; · simp [canonDate] at h
  rcases l with _ | ⟨d2, l⟩; · simp [canonDate] at h
  rcases l with _ | ⟨c0, l⟩
  swap; · simp [canonDate] at h
  simp only [canonDate, Bool.and_eq_true, decide_eq_true_eq, List.all_eq_true] at h
  obtain ⟨e1, e2, hdig, hval⟩ := h
  subst e1; subst e2
  have hy : ∀ c ∈ [y1, y2, y3, y4], c.isDigit = true := by
    intro c hc
    simp only [List.mem_cons, List.not_mem_nil, or_false] at hc
    rcases hc with rfl | rfl | rfl | rfl <;> exact hdig _ (by simp)
  have hm : ∀ c ∈ [m1, m2], c.isDigit = true := by
    intro c hc
    simp only [List.mem_cons, List.not_mem_nil, or_false] at hc
    rcases hc with rfl | rfl <;> exact hdig _ (by simp)
  have hd : ∀ c ∈ [d1, d2], c.isDigit = true := by
    intro c hc
    simp only [List.mem_cons, List.not_mem_nil, or_false] at hc
    rcases hc with rfl | rfl <;> exact hdig _ (by simp)
  have heq : [y1, y2, y3, y4, '-', m1, m2, '-', d1, d2] =
      [y1, y2, y3, y4] ++ '-' :: [m1, m2] ++ '-' :: [d1, d2] := by simp
  rw [heq,
    parseDate_iso hy (by simp) hm (by simp) (by simp) hd (by simp) (by simp)
      (by decide) (by decide)]
  rw [if_pos hval]
  simp [pad2]

/-! ### Sorting by date descending -/

theorem insertObs_perm (a : Observation) :
    ∀ l : List Observation, (insertObs a l).Perm (a :: l) := by
  intro l
  induction l with
  | nil => simp [insertObs]
  | cons b bs ih =>
    unfold insertObs
    split
    · exact List.Perm.refl _
    · exact ((ih.cons b).trans (List.Perm.swap a b bs))

theorem sortDesc_perm : ∀ l : List Observation, (sortDesc l).Perm l := by
  intro l
  induction l with
  | nil => simp [sortDesc]
  | cons a as ih =>
    exact (insertObs_perm a (sortDesc as)).trans (ih.cons a)

theorem mem_insertObs {x a : Observation} {l : List Observation} :
    x ∈ insertObs a l ↔ x = a ∨ x ∈ l := by
  rw [(insertObs_perm a l).mem_iff, List.mem_cons]

theorem obsPrecede_total {a b : Observation} (h : obsPrecede a b = false) :
    obsPrecede b a = true := by
  unfold obsPrecede at h ⊢
  rcases ha : jsTime a.date with _ | ka <;> rcases hb : jsTime b.date with _ | kb <;>
    rw [ha, hb] at h <;> simp_all <;> omega

theorem obsPrecede_trans {a b c : Observation}
    (va : (jsTime a.date).isSome = true) (vb : (jsTime b.date).isSome = true)
    (vc : (jsTime c.date).isSome = true)
    (h1 : obsPrecede a b = true) (h2 : obsPrecede b c = true) :
    obsPrecede a c = true := by
  unfold obsPrecede at h1 h2 ⊢
  rcases ha : jsTime a.date with _ | ka
  · simp [ha] at va
  rcases hb : jsTime b.date with _ | kb
  · simp [hb] at vb
  rcases hc : jsTime c.date with _ | kc
  · simp [hc] at vc
  simp_all
  omega

theorem insertObs_pairwise {a : Observation} {l : List Observation}
    (va : (jsTime a.date).isSome = true)
    (vl : ∀ o ∈ l, (jsTime o.date).isSome = true)
    (hp : l.Pairwise (fun x y => obsPrecede x y = true)) :
    (insertObs a l).Pairwise (fun x y => obsPrecede x y = true) := by
  induction l with
  | nil => simp [insertObs]
  | cons b bs ih =>
    unfold insertObs
    split
    · rename_i hab
      refine List.Pairwise.cons ?_ hp
      intro y hy
      rcases List.mem_cons.mp hy with rfl | hy
      · exact hab
      · exact obsPrecede_trans va (vl b (by simp)) (vl y (by simp [hy]))
          hab ((List.pairwise_cons.mp hp).1 y hy)
    · rename_i hab
      have hba := obsPrecede_total (Bool.eq_false_iff.mpr hab)
      obtain ⟨hb1, hb2⟩ := List.pairwise_cons.mp hp
      refine List.Pairwise.cons ?_ (ih (fun o ho => vl o (by simp [ho])) hb2)
      intro y hy
      rcases mem_insertObs.mp hy with rfl | hy
      · exact hba
      · exact hb1 y hy

theorem sortDesc_pairwise {l : List Observation}
    (vl : ∀ o ∈ l, (jsTime o.date).isSome = true) :
    (sortDesc l).Pairwise (fun x y => obsPrecede x y = true) := by
  induction l with
  | nil => simp [sortDesc]
  | cons a as ih =>
    refine insertObs_pairwise (vl a (by simp)) ?_ (ih (fun o ho => vl o (by simp [ho])))
    intro o ho
    exact vl o (by simp [(sortDesc_perm as).mem_iff.mp ho])

/-! ### Upsert lemmas -/

theorem replaceFirst_map_date (r : Observation) :
    ∀ l : List Observation,
      (replaceFirst r l).map Observation.date = l.map Observation.date := by
  intro l
  induction l with
  | nil => rfl
  | cons o os ih =>
    unfold replaceFirst
    split
    · rename_i h
      simp [h]
    · simp [ih]

theorem mem_replaceFirst {x r : Observation} :
    ∀ {l : List Observation}, x ∈ replaceFirst r l → x.date = r.date ∨ x ∈ l := by
  intro l
  induction l with
  | nil => intro h; cases h
  | cons o os ih =>
    unfold replaceFirst
    split
    · intro h
      rcases List.mem_cons.mp h with rfl | h
      · exact Or.inl rfl
      · exact Or.inr (by simp [h])
    · intro h
      rcases List.mem_cons.mp h with rfl | h
      · exact Or.inr (by simp)
      · rcases ih h with h | h
        · exact Or.inl h
        · exact Or.inr (by simp [h])

theorem replaceFirst_perm {r old : Observation} :
    ∀ {l : List Observation}, (l.map Observation.date).Nodup → old ∈ l →
      old.date = r.date →
      (replaceFirst r l).Perm ({ r with id := old.id } :: l.erase old) := by
  intro l
  induction l with
  | nil => intro _ h; cases h
  | cons o os ih =>
    intro hnd hmem hdate
    rcases List.mem_cons.mp hmem with rfl | hmem
    · unfold replaceFirst
      rw [if_pos hdate, List.erase_cons_head]
    · have hne : o.date ≠ r.date := by
        intro e
        have : old.date ∈ os.map Observation.date := List.mem_map_of_mem _ hmem
        rw [hdate, ← e] at this
        exact (List.nodup_cons.mp (by simpa using hnd)).1 this
      have hneo : o ≠ old := by
        intro e
        exact hne (e ▸ hdate)
      unfold replaceFirst
      rw [if_neg hne]
      rw [List.erase_cons_tail (by simpa using hneo)]
      refine ((ih ?_ hmem hdate).cons o).trans (List.Perm.swap _ _ _)
      exact (List.nodup_cons.mp (by simpa using hnd)).2

/-! ### The date-uniqueness invariant under each operation -/

theorem DatesNodup_perm {l1 l2 : List Observation} (h : l1.Perm l2) :
    DatesNodup l1 ↔ DatesNodup l2 :=
  (h.map Observation.date).nodup_iff

theorem DatesNodup_save {obs : Observation} {s : State} (h : DatesNodup s) :
    DatesNodup (saveObservation obs s) := by
  have hcur : DatesNodup (getObservations s) :=
    (DatesNodup_perm (sortDesc_perm s)).mpr h
  unfold saveObservation
  dsimp only
  split
  · rename_i hany
    rw [DatesNodup_perm (sortDesc_perm _)]
    unfold DatesNodup
    rw [replaceFirst_map_date]
    exact hcur
  · rename_i hany
    rw [DatesNodup_perm (sortDesc_perm _)]
    unfold DatesNodup
    rw [List.map_cons, List.nodup_cons]
    refine ⟨?_, hcur⟩
    intro hmem
    rcases List.mem_map.mp hmem with ⟨o, ho, he⟩
    exact hany (List.any_eq_true.mpr ⟨o, ho, by simp [he]⟩)

theorem DatesNodup_del {id : List Char} {s : State} (h : DatesNodup s) :
    DatesNodup (deleteObservation id s) := by
  have hcur : DatesNodup (getObservations s) :=
    (DatesNodup_perm (sortDesc_perm s)).mpr h
  unfold deleteObservation
  exact ((List.filter_sublist _).map Observation.date).nodup hcur

theorem assignIds_map_date (idGen : Nat → List Char) :
    ∀ (i : Nat) (rs : List RowRec),
      (assignIds idGen i rs).map Observation.date = rs.map RowRec.date := by
  intro i rs
  induction rs generalizing i with
  | nil => rfl
  | cons r rest ih => simp [assignIds, ih]

theorem assignIds_map_vals (idGen : Nat → List Char) :
    ∀ (i : Nat) (rs : List RowRec),
      (assignIds idGen i rs).map obsVals = rs.map rowVals := by
  intro i rs
  induction rs generalizing i with
  | nil => rfl
  | cons r rest ih => simp [assignIds, ih, obsVals, rowVals]

theorem DatesNodup_import {idGen : Nat → List Char} {input : List Char} {s : State}
    (h : DatesNodup s) (himp : ((importRows input).map RowRec.date).Nodup) :
    DatesNodup (importApply idGen input s) := by
  unfold importApply
  dsimp only
  split
  · exact h
  · unfold importFromCSV
    rw [DatesNodup_perm (sortDesc_perm _)]
    unfold DatesNodup
    rw [assignIds_map_date]
    exact himp

end FigApp

/-! ## Claim theorems -/

namespace FigApp

/-- C2 (counterexample): the Date Normalizer accepts `31/02/2024` and
returns `2024-02-31`, but re-feeding that output fails the ISO-form
calendar check, so the output is not a fixed point and the claim as
stated is false. -/
theorem C2_counterexample :
    parseDate ['3', '1', '/', '0', '2', '/', '2', '0', '2', '4'] =
      some ['2', '0', '2', '4', '-', '0', '2', '-', '3', '1'] ∧
    parseDate ['2', '0', '2', '4', '-', '0', '2', '-', '3', '1'] = none := by decide

/-- C2 (amended): for every input accepted by the Date Normalizer whose
output is a canonically shaped, calendar-valid `YYYY-MM-DD` string,
re-feeding the output returns it unchanged (the output is a fixed point). -/
theorem C2_amended (raw out : List Char)
    (hacc : parseDate raw = some out) (hcanon : canonDate out = true) :
    parseDate out = some out :=
  canonFix hcanon

/-- C2 (witness): `1/10/2023` is accepted with canonical valid output
`2023-10-01`, and the amended theorem applies to give the fixed point. -/
theorem C2_witness :
    parseDate ['1', '/', '1', '0', '/', '2', '0', '2', '3'] =
      some ['2', '0', '2', '3', '-', '1', '0', '-', '0', '1'] ∧
    canonDate ['2', '0', '2', '3', '-', '1', '0', '-', '0', '1'] = true ∧
    parseDate ['2', '0', '2', '3', '-', '1', '0', '-', '0', '1'] =
      some ['2', '0', '2', '3', '-', '1', '0', '-', '0', '1'] :=
  ⟨by decide, by decide,
    C2_amended ['1', '/', '1', '0', '/', '2', '0', '2', '3'] _ (by decide) (by decide)⟩

/-- C9: a slash/day-first date with a two-digit year `YY` is normalized to
year `20YY` unconditionally (no century pivot). -/
theorem C9_two_digit_year (d m y : List Char) (s1 s2 : Char)
    (hd : ∀ c ∈ d, c.isDigit = true) (hd1 : 1 ≤ d.length) (hd2 : d.length ≤ 2)
    (hm : ∀ c ∈ m, c.isDigit = true) (hm1 : 1 ≤ m.length) (hm2 : m.length ≤ 2)
    (hy : ∀ c ∈ y, c.isDigit = true) (hylen : y.length = 2)
    (hs1 : isSep s1 = true) (hs2 : isSep s2 = true) :
    parseDate (d ++ s1 :: m ++ s2 :: y) =
      some ('2' :: '0' :: y ++ '-' :: pad2 m ++ '-' :: pad2 d) := by
  rw [parseDate_slash hd hd1 hd2 hm hm1 hm2 hy (by omega) (by omega) hs1 hs2]
  rw [if_pos hylen]

/-- C9 (witness): `01/10/99` normalizes to `2099-10-01`, not `1999-10-01`. -/
theorem C9_witness :
    parseDate ['0', '1', '/', '1', '0', '/', '9', '9'] =
      some ['2', '0', '9', '9', '-', '1', '0', '-', '0', '1'] := by
  have h := C9_two_digit_year ['0', '1'] ['1', '0'] ['9', '9'] '/' '/'
    (by decide) (by decide) (by decide) (by decide) (by decide) (by decide)
    (by decide) (by decide) (by decide) (by decide)
  simpa using h

/-- C3 (counterexample): a single bulk import whose text carries two rows
with the same date leaves the persisted slot with two observations dated
`2023-10-01`, so the uniqueness invariant fails under the import
operation. -/
theorem C3_counterexample :
    ¬ DatesNodup (runOps
      [Op.imp constId
        ("01/10/2023,1,2".data ++ '\n' :: "01/10/2023,3,4".data)] []) := by
  decide

/-- C3 (amended): after any sequence of upserts, deletes and imports,
starting from a duplicate-free slot, the slot never holds two
observations with the same date, provided every import in the sequence
has pairwise-distinct dates among its accepted rows. -/
theorem C3_amended (ops : List Op) (s0 : State) (h0 : DatesNodup s0)
    (himp : ∀ g inp, Op.imp g inp ∈ ops → ((importRows inp).map RowRec.date).Nodup) :
    DatesNodup (runOps ops s0) := by
  induction ops generalizing s0 with
  | nil => exact h0
  | cons op rest ih =>
    unfold runOps
    have hstep : DatesNodup (applyOp op s0) := by
      cases op with
      | save o => exact DatesNodup_save h0
      | del i => exact DatesNodup_del h0
      | imp g inp => exact DatesNodup_import h0 (himp g inp (by simp))
    exact ih _ hstep (fun g inp hm => himp g inp (by simp [hm]))

/-- C3 (witness): a concrete trace of an upsert followed by a
duplicate-free import keeps the slot duplicate-free. -/
theorem C3_witness :
    DatesNodup (runOps
      [Op.save wRec, Op.imp constId "2023-10-05,1,2".data] []) := by
  refine C3_amended _ _ (by decide) ?_
  intro g inp hm
  simp only [List.mem_cons, List.not_mem_nil, or_false] at hm
  rcases hm with hm | hm
  · simp at hm
  · injection hm with e1 e2
    subst e2
    decide

/-- C10: on any input where the row parser accepts zero rows,
`importFromCSV` returns the empty list and the persisted slot is left
untouched (an empty or failed import never erases existing data). -/
theorem C10_empty_import_frame (idGen : Nat → List Char) (input : List Char) (s : State)
    (h : importRows input = []) :
    importFromCSV idGen input = [] ∧ importApply idGen input s = s ∧
      applyOp (Op.imp idGen input) s = s := by
  have h1 : importFromCSV idGen input = [] := by
    unfold importFromCSV
    rw [h]
    rfl
  refine ⟨h1, ?_, ?_⟩
  · simp [importApply, h1]
  · simp [applyOp, importApply, h1]

/-- C10 (witness): a header-plus-text block with no acceptable rows
returns no records and leaves a nonempty slot unchanged. -/
theorem C10_witness :
    importRows "Date,Figs,Bats\nhello,world,today".data = [] ∧
    importFromCSV constId "Date,Figs,Bats\nhello,world,today".data = [] ∧
    importApply constId "Date,Figs,Bats\nhello,world,today".data wStore = wStore ∧
    applyOp (Op.imp constId "Date,Figs,Bats\nhello,world,today".data) wStore = wStore :=
  ⟨by decide,
    (C10_empty_import_frame constId _ wStore (by decide)).1,
    (C10_empty_import_frame constId _ wStore (by decide)).2.1,
    (C10_empty_import_frame constId _ wStore (by decide)).2.2⟩

/-- C8 (counterexample): a URL containing `output=csv` but no extractable
document identifier is passed through: the adapter does not fail with the
invalid-URL reason and issues a network request, refuting the claim as
stated. -/
theorem C8_counterexample :
    extractId passthroughUrl = none ∧
    sheetRequest passthroughUrl = some passthroughUrl := by decide

/-- C8 (amended): for every URL not containing `output=csv` from which no
document identifier can be extracted, the Sheet Import Adapter fails with
the invalid-URL reason and issues no network request. -/
theorem C8_amended (url : List Char)
    (hcsv : includesSub outputCsvChars url = false)
    (hid : extractId url = none) :
    computeFetchUrl url = Except.error invalidUrlMsg ∧ sheetRequest url = none := by
  have h1 : computeFetchUrl url = Except.error invalidUrlMsg := by
    unfold computeFetchUrl
    rw [hcsv, hid]
    rfl
  exact ⟨h1, by simp [sheetRequest, h1]⟩

/-- C8 (witness): a plain URL with no id and no `output=csv` marker fails
with the invalid-URL reason before any request. -/
theorem C8_witness :
    computeFetchUrl badSheetUrl = Except.error invalidUrlMsg ∧
      sheetRequest badSheetUrl = none :=
  C8_amended badSheetUrl (by decide) (by decide)

end FigApp

namespace FigApp

/-- C4: for every duplicate-free store of dated records and record `r`,
`saveObservation` replaces the matching-date record's values while
keeping its stored id (or inserts `r` when no date matches), returns a
set sorted by date descending, and the state transition writes exactly
that returned list as the whole new slot. -/
theorem C4_upsert (r : Observation) (s : State)
    (hnd : DatesNodup s)
    (hv : ∀ o ∈ r :: s, (jsTime o.date).isSome = true) :
    (∀ old ∈ s, old.date = r.date →
        (saveObservation r s).Perm ({ r with id := old.id } :: s.erase old)) ∧
    ((∀ o ∈ s, o.date ≠ r.date) → (saveObservation r s).Perm (r :: s)) ∧
    (saveObservation r s).Pairwise (fun a b => obsPrecede a b = true) ∧
    applyOp (Op.save r) s = saveObservation r s := by
  have hget : (getObservations s).Perm s := sortDesc_perm s
  have hndc : DatesNodup (getObservations s) := (DatesNodup_perm hget).mpr hnd
  refine ⟨?_, ?_, ?_, rfl⟩
  · intro old hold hdate
    have hold2 : old ∈ getObservations s := hget.mem_iff.mpr hold
    have hany : ((getObservations s).any fun o => decide (o.date = r.date)) = true :=
      List.any_eq_true.mpr ⟨old, hold2, by simp [hdate]⟩
    unfold saveObservation
    dsimp only
    rw [if_pos hany]
    refine (sortDesc_perm _).trans ?_
    refine (replaceFirst_perm hndc hold2 hdate).trans ?_
    exact ((hget.erase old).cons _)
  · intro hno
    have hany : ((getObservations s).any fun o => decide (o.date = r.date)) = false := by
      rw [List.any_eq_false]
      intro o ho
      simp [hno o (hget.mem_iff.mp ho)]
    unfold saveObservation
    dsimp only
    rw [if_neg (by simp [hany])]
    exact (sortDesc_perm _).trans (hget.cons r)
  · have hvget : ∀ o ∈ getObservations s, (jsTime o.date).isSome = true :=
      fun o ho => hv o (by simp [hget.mem_iff.mp ho])
    unfold saveObservation
    dsimp only
    split
    · refine sortDesc_pairwise ?_
      intro o ho
      rcases mem_replaceFirst ho with hdate | hmem
      · rw [hdate]
        exact hv r (by simp)
      · exact hvget o hmem
    · refine sortDesc_pairwise ?_
      intro o ho
      rcases List.mem_cons.mp ho with rfl | hmem
      · exact hv o (by simp)
      · exact hvget o hmem

/-- C4 (witness): upserting a record whose date matches the stored record
with id `a` on a concrete two-record store. -/
theorem C4_witness :
    DatesNodup wStore ∧
    (∀ o ∈ wRec :: wStore, (jsTime o.date).isSome = true) ∧
    ((∀ old ∈ wStore, old.date = wRec.date →
        (saveObservation wRec wStore).Perm ({ wRec with id := old.id } :: wStore.erase old)) ∧
      ((∀ o ∈ wStore, o.date ≠ wRec.date) → (saveObservation wRec wStore).Perm (wRec :: wStore)) ∧
      (saveObservation wRec wStore).Pairwise (fun a b => obsPrecede a b = true) ∧
      applyOp (Op.save wRec) wStore = saveObservation wRec wStore) :=
  ⟨by decide, by decide, C4_upsert wRec wStore (by decide) (by decide)⟩

end FigApp



namespace FigApp

/-- C1: a row is accepted iff (after trimming and splitting on the
delimiter) it has at least three fields, its date field normalizes, and
its figs and bats fields coerce to valid numbers (empty string coercing
to `0`, non-numeric text to the `NaN` sentinel `none`); the accepted
record carries the normalized date, figs/bats/leaves rounded to the
nearest integer, and leaves defaulting to `0` when the fourth field is
absent or invalid. -/
theorem C1_row_acceptance (delim : Char) (rawLine : List Char) :
    parseValue [] = some 0 ∧
    ∀ rec : RowRec,
      parseRow delim rawLine = some rec ↔
        (3 ≤ ((splitOnChar delim (jsTrim rawLine)).map jsTrim).length ∧
         ∃ d f b,
           parseDate (((splitOnChar delim (jsTrim rawLine)).map jsTrim).getD 0 []) = some d ∧
           parseValue (((splitOnChar delim (jsTrim rawLine)).map jsTrim).getD 1 []) = some f ∧
           parseValue (((splitOnChar delim (jsTrim rawLine)).map jsTrim).getD 2 []) = some b ∧
           rec = ⟨d, jsRound f, jsRound b,
             leavesOf ((splitOnChar delim (jsTrim rawLine)).map jsTrim)⟩) := by
  refine ⟨rfl, ?_⟩
  intro rec
  unfold parseRow
  dsimp only
  by_cases he : jsTrim rawLine = []
  · rw [if_pos he, he]
    simp [splitOnChar, jsTrim]
  · rw [if_neg he]
    by_cases h3 : 3 ≤ ((splitOnChar delim (jsTrim rawLine)).map jsTrim).length
    · rw [if_pos h3]
      have h4 : 3 ≤ (splitOnChar delim (jsTrim rawLine)).length := by simpa using h3
      rcases h0 : parseDate (((splitOnChar delim (jsTrim rawLine)).map jsTrim).getD 0 [])
        with _ | d
      · simp [h0]
      rcases h1 : parseValue (((splitOnChar delim (jsTrim rawLine)).map jsTrim).getD 1 [])
        with _ | f
      · simp [h0, h1]
      rcases h2 : parseValue (((splitOnChar delim (jsTrim rawLine)).map jsTrim).getD 2 [])
        with _ | b
      · simp [h0, h1, h2]
      · simp [h0, h1, h2, h3, h4, eq_comm]
    · rw [if_neg h3]
      have h4 : ¬ 3 ≤ (splitOnChar delim (jsTrim rawLine)).length := by simpa using h3
      simp [h3, h4]

/-- C1 (witness): a concrete tab-separated row with no fourth field is
accepted with leaves defaulted to zero. -/
theorem C1_witness :
    parseRow ',' "01/10/2023,20.6,10".data =
      some ⟨['2', '0', '2', '3', '-', '1', '0', '-', '0', '1'], 21, 10, 0⟩ ∧
    (3 ≤ ((splitOnChar ',' (jsTrim "01/10/2023,20.6,10".data)).map jsTrim).length ∧
     ∃ d f b,
       parseDate (((splitOnChar ',' (jsTrim "01/10/2023,20.6,10".data)).map jsTrim).getD 0 []) = some d ∧
       parseValue (((splitOnChar ',' (jsTrim "01/10/2023,20.6,10".data)).map jsTrim).getD 1 []) = some f ∧
       parseValue (((splitOnChar ',' (jsTrim "01/10/2023,20.6,10".data)).map jsTrim).getD 2 []) = some b ∧
       (⟨['2', '0', '2', '3', '-', '1', '0', '-', '0', '1'], 21, 10, 0⟩ : RowRec) =
         ⟨d, jsRound f, jsRound b,
           leavesOf ((splitOnChar ',' (jsTrim "01/10/2023,20.6,10".data)).map jsTrim)⟩) :=
  ⟨by with_unfolding_all rfl,
    ((C1_row_acceptance ',' "01/10/2023,20.6,10".data).2
      ⟨['2', '0', '2', '3', '-', '1', '0', '-', '0', '1'], 21, 10, 0⟩).mp
      (by with_unfolding_all rfl)⟩

end FigApp

namespace FigApp

/-! ### Round-trip support: character classes of well-formed rows -/

/-- A character that can occur in a well-formed row field. -/
def plainCh (c : Char) : Bool := c.isDigit || c = '-'

theorem plainCh_not_ws {c : Char} (h : plainCh c = true) : isWsCh c = false := by
  rcases (by simpa [plainCh] using h : c.isDigit = true ∨ c = '-') with h | h
  · exact isDigit_not_ws h
  · subst h
    decide

theorem plainCh_ne {c x : Char} (h : plainCh c = true) (h1 : x.isDigit = false)
    (h2 : x ≠ '-') : c ≠ x := by
  rcases (by simpa [plainCh] using h : c.isDigit = true ∨ c = '-') with h | h
  · exact digit_ne h h1
  · subst h
    exact fun e => h2 e.symm

theorem canonDate_plain {l : List Char} (h : canonDate l = true) :
    ∀ c ∈ l, plainCh c = true := by
  intro c hc
  rcases canonDate_chars h c hc with h1 | h1 <;> simp [plainCh, h1]

theorem intLit_plain {l : List Char} (h : intLit l = true) :
    ∀ c ∈ l, plainCh c = true := by
  intro c hc
  unfold intLit at h
  split at h
  · rename_i ds
    rcases List.mem_cons.mp hc with rfl | hc2
    · simp [plainCh]
    · simp only [natLit, Bool.and_eq_true, List.all_eq_true] at h
      simp [plainCh, h.2 c hc2]
  · simp only [natLit, Bool.and_eq_true, List.all_eq_true] at h
    simp [plainCh, h.2 c hc]

theorem intLit_ne_nil {l : List Char} (h : intLit l = true) : l ≠ [] := by
  unfold intLit at h
  split at h
  · simp
  · simp only [natLit, Bool.and_eq_true] at h
    intro e
    subst e
    simp at h

theorem canonDate_ne_nil {l : List Char} (h : canonDate l = true) : l ≠ [] := by
  intro e
  subst e
  simp [canonDate] at h

theorem all_digit_getLast (l : List Char) (hne : l ≠ [])
    (hd : ∀ c ∈ l, c.isDigit = true) :
    ∃ c, l.getLast? = some c ∧ c.isDigit = true := by
  rcases List.eq_nil_or_concat l with rfl | ⟨l2, c, rfl⟩
  · exact absurd rfl hne
  · exact ⟨c, by simp, hd c (by simp)⟩

theorem intLit_getLast {l : List Char} (h : intLit l = true) :
    ∃ c, l.getLast? = some c ∧ c.isDigit = true := by
  unfold intLit at h
  split at h
  · rename_i ds
    simp only [natLit, Bool.and_eq_true, List.all_eq_true] at h
    rcases ds with _ | ⟨x, xs⟩
    · simp at h
    · obtain ⟨c, hc1, hc2⟩ :=
        all_digit_getLast (x :: xs) (by simp) (fun c hc => h.2 c hc)
      exact ⟨c, by rw [List.getLast?_cons_cons]; exact hc1, hc2⟩
  · simp only [natLit, Bool.and_eq_true, List.all_eq_true] at h
    exact all_digit_getLast _ (by simpa using h.1) (fun c hc => h.2 c hc)

end FigApp

namespace FigApp

/-! ### Round-trip support: joining and re-splitting lines -/

theorem joinNl_cons_ne (r : List Char) {rs : List (List Char)} (h : rs ≠ []) :
    joinNl (r :: rs) = r ++ '\n' :: joinNl rs := by
  rcases rs with _ | ⟨a, as⟩
  · exact absurd rfl h
  · rfl

theorem joinNl_ne_nil {rs : List (List Char)} (hne : rs ≠ [])
    (hr : ∀ r ∈ rs, r ≠ ([] : List Char)) : joinNl rs ≠ [] := by
  rcases rs with _ | ⟨a, as⟩
  · exact absurd rfl hne
  rcases as with _ | ⟨b, bs⟩
  · simpa [joinNl] using hr a (by simp)
  · rw [joinNl_cons_ne a (by simp)]
    intro e
    rcases List.append_eq_nil.mp e with ⟨_, e2⟩
    cases e2

theorem joinNl_head {r : List Char} {rs : List (List Char)} (h : r ≠ []) :
    (joinNl (r :: rs)).head? = r.head? := by
  rcases rs with _ | ⟨a, as⟩
  · rfl
  · rw [joinNl_cons_ne r (by simp)]
    rcases r with _ | ⟨c, cs⟩
    · exact absurd rfl h
    · rfl

theorem joinNl_getLast :
    ∀ {rs : List (List Char)} {r : List Char}, r ≠ [] →
      (∀ x ∈ rs, x ≠ ([] : List Char)) →
      (joinNl (rs ++ [r])).getLast? = r.getLast? := by
  intro rs
  induction rs with
  | nil => intro r _ _; rfl
  | cons a as ih =>
    intro r hr hall
    rw [List.cons_append, joinNl_cons_ne a (by simp)]
    have hx1 : ('\n' :: joinNl (as ++ [r])) ≠ ([] : List Char) := by simp
    rw [List.getLast?_append_of_ne_nil _ hx1]
    have hjn : joinNl (as ++ [r]) ≠ [] := by
      refine joinNl_ne_nil (by simp) ?_
      intro x hx
      rcases List.mem_append.mp hx with hx | hx
      · exact hall x (by simp [hx])
      · simp only [List.mem_singleton] at hx
        subst hx
        exact hr
    rcases hjoin : joinNl (as ++ [r]) with _ | ⟨c, cs⟩
    · exact absurd hjoin hjn
    · rw [List.getLast?_cons_cons]
      rw [← hjoin]
      exact ih hr (fun x hx => hall x (by simp [hx]))

/-- Splitting the newline-join of newline-free lines recovers the lines. -/
theorem splitLinesJs_joinNl :
    ∀ {rs : List (List Char)}, rs ≠ [] → (∀ r ∈ rs, noNl r) →
      splitLinesJs (joinNl rs) = rs := by
  intro rs
  induction rs with
  | nil => intro h _; exact absurd rfl h
  | cons a as ih =>
    intro _ hall
    rcases as with _ | ⟨b, bs⟩
    · exact splitLinesJs_single (hall a (by simp))
    · rw [joinNl_cons_ne a (by simp)]
      rw [splitLinesJs_append (hall a (by simp))]
      rw [ih (by simp) (fun r hr => hall r (by simp [hr]))]

end FigApp

namespace FigApp

theorem contains_eq_false {l : List Char} {c : Char} (h : c ∉ l) :
    l.contains c = false := by
  induction l with
  | nil => rfl
  | cons a as ih =>
    simp only [List.contains_cons]
    rw [ih (fun e => h (by simp [e]))]
    simp only [List.mem_cons, not_or] at h
    have hba : (c == a) = false := beq_eq_false_iff_ne.mpr h.1
    simp [hba]

theorem canonDate_head {l : List Char} (h : canonDate l = true) :
    ∃ ch, l.head? = some ch ∧ ch.isDigit = true := by
  rcases l with _ | ⟨y1, l⟩; · simp [canonDate] at h
  rcases l with _ | ⟨y2, l⟩; · simp [canonDate] at h
  rcases l with _ | ⟨y3, l⟩; · simp [canonDate] at h
  rcases l with _ | ⟨y4, l⟩; · simp [canonDate] at h
  rcases l with _ | ⟨h1, l⟩; · simp [canonDate] at h
  rcases l with _ | ⟨m1, l⟩; · simp [canonDate] at h
  rcases l with _ | ⟨m2, l⟩; · simp [canonDate] at h
  rcases l with _ | ⟨h2, l⟩; · simp [canonDate] at h
  rcases l with _ | ⟨d1, l⟩; · simp [canonDate] at h
  rcases l with _ | ⟨d2, l⟩; · simp [canonDate] at h
  rcases l with _ | ⟨c0, l⟩
  swap; · simp [canonDate] at h
  simp only [canonDate, Bool.and_eq_true, decide_eq_true_eq, List.all_eq_true] at h
  exact ⟨y1, rfl, h.2.2.1 y1 (by simp)⟩

/-! ### Round-trip support: parsing an assembled well-formed row -/

theorem assembleRow_chars {x : List Char × List Char × List Char × List Char}
    (h : wfFields x = true) :
    ∀ ch ∈ assembleRow x, plainCh ch = true ∨ ch = ',' := by
  obtain ⟨d, a, b, c⟩ := x
  simp only [wfFields, Bool.and_eq_true] at h
  obtain ⟨⟨⟨hd, ha⟩, hb⟩, hc⟩ := h
  intro ch hch
  simp only [assembleRow, List.mem_append, List.mem_cons] at hch
  rcases hch with hch | hch
  · exact Or.inl (canonDate_plain hd ch hch)
  rcases hch with rfl | hch
  · exact Or.inr rfl
  rcases hch with hch | hch
  · exact Or.inl (intLit_plain ha ch hch)
  rcases hch with rfl | hch
  · exact Or.inr rfl
  rcases hch with hch | hch
  · exact Or.inl (intLit_plain hb ch hch)
  rcases hch with rfl | hch
  · exact Or.inr rfl
  · exact Or.inl (intLit_plain hc ch hch)

theorem assembleRow_ne_nil {x : List Char × List Char × List Char × List Char}
    (h : wfFields x = true) : assembleRow x ≠ [] := by
  obtain ⟨d, a, b, c⟩ := x
  simp only [wfFields, Bool.and_eq_true] at h
  intro e
  rcases List.append_eq_nil.mp e with ⟨e1, _⟩
  exact canonDate_ne_nil h.1.1.1 e1

theorem assembleRow_not_ws {x : List Char × List Char × List Char × List Char}
    (h : wfFields x = true) : ∀ ch ∈ assembleRow x, isWsCh ch = false := by
  intro ch hch
  rcases assembleRow_chars h ch hch with h1 | h1
  · exact plainCh_not_ws h1
  · subst h1; decide

theorem assembleRow_noNl {x : List Char × List Char × List Char × List Char}
    (h : wfFields x = true) : noNl (assembleRow x) := by
  constructor
  · intro hmem
    rcases assembleRow_chars h _ hmem with h1 | h1
    · simp [plainCh] at h1
    · cases h1
  · intro hmem
    rcases assembleRow_chars h _ hmem with h1 | h1
    · simp [plainCh] at h1
    · cases h1

theorem assembleRow_head {x : List Char × List Char × List Char × List Char}
    (h : wfFields x = true) :
    ∃ ch, (assembleRow x).head? = some ch ∧ ch.isDigit = true := by
  obtain ⟨d, a, b, c⟩ := x
  simp only [wfFields, Bool.and_eq_true] at h
  obtain ⟨ch, hh, hdig⟩ := canonDate_head h.1.1.1
  refine ⟨ch, ?_, hdig⟩
  unfold assembleRow
  rw [List.head?_append_of_ne_nil _ (canonDate_ne_nil h.1.1.1)]
  exact hh

theorem assembleRow_getLast {x : List Char × List Char × List Char × List Char}
    (h : wfFields x = true) :
    ∃ ch, (assembleRow x).getLast? = some ch ∧ ch.isDigit = true := by
  obtain ⟨d, a, b, c⟩ := x
  simp only [wfFields, Bool.and_eq_true] at h
  obtain ⟨ch, hl, hdig⟩ := intLit_getLast h.2
  refine ⟨ch, ?_, hdig⟩
  unfold assembleRow
  have hx1 : (',' :: (a ++ ',' :: (b ++ ',' :: c))) ≠ ([] : List Char) := by simp
  show (d ++ ',' :: (a ++ ',' :: (b ++ ',' :: c))).getLast? = some ch
  rw [List.getLast?_append_of_ne_nil _ hx1]
  rcases hac : a ++ ',' :: (b ++ ',' :: c) with _ | ⟨z, zs⟩
  · rcases List.append_eq_nil.mp hac with ⟨_, e2⟩
    cases e2
  · rw [List.getLast?_cons_cons, ← hac]
    have hx2 : (',' :: (b ++ ',' :: c)) ≠ ([] : List Char) := by simp
    rw [List.getLast?_append_of_ne_nil _ hx2]
    rcases hbc : b ++ ',' :: c with _ | ⟨w, ws⟩
    · rcases List.append_eq_nil.mp hbc with ⟨_, e2⟩
      cases e2
    · rw [List.getLast?_cons_cons, ← hbc]
      have hx3 : (',' :: c) ≠ ([] : List Char) := by simp
      rw [List.getLast?_append_of_ne_nil _ hx3]
      rcases hcc : c with _ | ⟨v, vs⟩
      · exact absurd hcc (intLit_ne_nil h.2)
      · rw [List.getLast?_cons_cons]
        rw [← hcc]
        exact hl

theorem parseRow_assembleRow {x : List Char × List Char × List Char × List Char}
    (h : wfFields x = true) :
    parseRow ',' (assembleRow x) = some (wfRowRec x) := by
  have hwf := h
  obtain ⟨d, a, b, c⟩ := x
  simp only [wfFields, Bool.and_eq_true] at h
  obtain ⟨⟨⟨hd, ha⟩, hb⟩, hc⟩ := h
  have hda := canonDate_plain hd
  have haa := intLit_plain ha
  have hba := intLit_plain hb
  have hca := intLit_plain hc
  have htrim : jsTrim (assembleRow (d, a, b, c)) = assembleRow (d, a, b, c) :=
    jsTrim_eq_self_all (assembleRow_not_ws hwf)
  have hnocomma : ∀ (f : List Char), (∀ ch ∈ f, plainCh ch = true) → ',' ∉ f :=
    fun f hf e => (plainCh_ne (hf ',' e) (by decide) (by decide)) rfl
  have hsplit : splitOnChar ',' (assembleRow (d, a, b, c)) = [d, a, b, c] := by
    show splitOnChar ',' (d ++ ',' :: (a ++ ',' :: (b ++ ',' :: c))) = [d, a, b, c]
    rw [splitOnChar_append (hnocomma d hda)]
    rw [splitOnChar_append (hnocomma a haa)]
    rw [splitOnChar_append (hnocomma b hba)]
    rw [splitOnChar_of_not_mem (hnocomma c hca)]
  have htm : List.map jsTrim [d, a, b, c] = [d, a, b, c] := by
    simp only [List.map]
    rw [jsTrim_eq_self_all (fun ch hch => plainCh_not_ws (hda ch hch)),
      jsTrim_eq_self_all (fun ch hch => plainCh_not_ws (haa ch hch)),
      jsTrim_eq_self_all (fun ch hch => plainCh_not_ws (hba ch hch)),
      jsTrim_eq_self_all (fun ch hch => plainCh_not_ws (hca ch hch))]
  obtain ⟨qa, hqa, hra⟩ := parseValue_intLit ha
  obtain ⟨qb, hqb, hrb⟩ := parseValue_intLit hb
  obtain ⟨qc, hqc, hrc⟩ := parseValue_intLit hc
  unfold parseRow
  dsimp only
  rw [htrim, if_neg (assembleRow_ne_nil hwf), hsplit, htm]
  have hlen : 3 ≤ ([d, a, b, c] : List (List Char)).length := by simp
  rw [if_pos hlen]
  have hg0 : ([d, a, b, c] : List (List Char)).getD 0 [] = d := rfl
  have hg1 : ([d, a, b, c] : List (List Char)).getD 1 [] = a := rfl
  have hg2 : ([d, a, b, c] : List (List Char)).getD 2 [] = b := rfl
  rw [hg0, hg1, hg2, canonFix hd, hqa, hqb]
  have hleaves : leavesOf [d, a, b, c] = intVal c := by
    unfold leavesOf
    rw [if_pos (by simp)]
    have hg3 : ([d, a, b, c] : List (List Char)).getD 3 [] = c := rfl
    rw [hg3, hqc]
    exact hrc
  simp only [hleaves, hra, hrb]
  rfl

end FigApp

namespace FigApp

/-! ### Round-trip support: the import pipeline on well-formed text -/

theorem filterMap_parseRow_assemble :
    ∀ {rows : List (List Char × List Char × List Char × List Char)},
      (∀ x ∈ rows, wfFields x = true) →
      (rows.map assembleRow).filterMap (parseRow ',') = rows.map wfRowRec := by
  intro rows
  induction rows with
  | nil => intro _; rfl
  | cons x rest ih =>
    intro h
    simp only [List.map_cons, List.filterMap_cons, parseRow_assembleRow (h x (by simp))]
    rw [ih (fun y hy => h y (by simp [hy]))]

theorem importRows_joinNl {rows : List (List Char × List Char × List Char × List Char)}
    (h : ∀ x ∈ rows, wfFields x = true) :
    importRows (joinNl (rows.map assembleRow)) = rows.map wfRowRec := by
  rcases rows with _ | ⟨x0, rest⟩
  · rfl
  have hwf0 : wfFields x0 = true := h x0 (by simp)
  have hrne : ∀ r ∈ (x0 :: rest).map assembleRow, r ≠ ([] : List Char) := by
    intro r hr
    rcases List.mem_map.mp hr with ⟨x, hx, rfl⟩
    exact assembleRow_ne_nil (h x hx)
  have hnoNl : ∀ r ∈ (x0 :: rest).map assembleRow, noNl r := by
    intro r hr
    rcases List.mem_map.mp hr with ⟨x, hx, rfl⟩
    exact assembleRow_noNl (h x hx)
  have hjne : joinNl ((x0 :: rest).map assembleRow) ≠ [] :=
    joinNl_ne_nil (by simp) hrne
  have htrimJoin : jsTrim (joinNl ((x0 :: rest).map assembleRow)) =
      joinNl ((x0 :: rest).map assembleRow) := by
    obtain ⟨ch0, hh0, hd0⟩ := assembleRow_head hwf0
    refine jsTrim_eq_self ?_ ?_
    · intro ch hch
      rw [List.map_cons, joinNl_head (assembleRow_ne_nil hwf0), hh0] at hch
      injection hch with e
      subst e
      exact isDigit_not_ws hd0
    · intro ch hch
      rcases List.eq_nil_or_concat ((x0 :: rest).map assembleRow) with he | ⟨rs2, rlast, he⟩
      · simp at he
      have he2 : (x0 :: rest).map assembleRow = rs2 ++ [rlast] := by
        rw [he, List.concat_eq_append]
      have hlastmem : rlast ∈ (x0 :: rest).map assembleRow := by
        rw [he2]; simp
      rcases List.mem_map.mp hlastmem with ⟨x, hx, rfl⟩
      obtain ⟨chL, hL, hdL⟩ := assembleRow_getLast (h x hx)
      rw [he2, joinNl_getLast (assembleRow_ne_nil (h x hx))
        (fun y hy => hrne y (by rw [he2]; simp [hy])), hL] at hch
      injection hch with e
      subst e
      exact isDigit_not_ws hdL
  have hsplit : splitLinesJs (joinNl ((x0 :: rest).map assembleRow)) =
      (x0 :: rest).map assembleRow :=
    splitLinesJs_joinNl (by simp) hnoNl
  have hfind : (((x0 :: rest).map assembleRow).find?
      (fun l => !(jsTrim l).isEmpty)) = some (assembleRow x0) := by
    rw [List.map_cons]
    refine List.find?_cons_of_pos _ ?_
    rw [jsTrim_eq_self_all (assembleRow_not_ws hwf0)]
    simp [assembleRow_ne_nil hwf0]
  have hdelim : (assembleRow x0).contains '\t' = false := by
    refine contains_eq_false ?_
    intro hmem
    rcases assembleRow_chars hwf0 _ hmem with h1 | h1
    · simp [plainCh] at h1
    · cases h1
  unfold importRows
  dsimp only
  rw [htrimJoin, if_neg hjne, hsplit, hfind]
  simp only [Option.getD_some, hdelim, Bool.false_eq_true, if_false]
  exact filterMap_parseRow_assemble h

/-- The values recovered by importing well-formed CSV text are exactly the
rows' values, up to the sort. -/
theorem import_wf_vals (idGen : Nat → List Char)
    {rows : List (List Char × List Char × List Char × List Char)}
    (h : ∀ x ∈ rows, wfFields x = true) :
    ((importFromCSV idGen (joinNl (rows.map assembleRow))).map obsVals).Perm
      (rows.map wfVal) := by
  unfold importFromCSV
  refine ((sortDesc_perm _).map obsVals).trans ?_
  rw [assignIds_map_vals, importRows_joinNl h, List.map_map]
  have : rowVals ∘ wfRowRec = wfVal := by
    funext x
    rfl
  rw [this]

theorem perm_map_preimage {α β : Type} (f : α → β) {L M : List β} (h : L.Perm M) :
    ∀ l : List α, M = l.map f → ∃ l2 : List α, l2.Perm l ∧ L = l2.map f := by
  induction h with
  | nil =>
    intro l hl
    rw [Eq.comm, List.map_eq_nil] at hl
    exact ⟨[], by rw [hl], rfl⟩
  | cons x h ih =>
    intro l hl
    rcases l with _ | ⟨a, l2⟩
    · simp at hl
    simp only [List.map_cons, List.cons.injEq] at hl
    obtain ⟨l3, hp, hL⟩ := ih l2 hl.2
    exact ⟨a :: l3, hp.cons a, by simp [hL, hl.1]⟩
  | swap x y rest =>
    intro l hl
    rcases l with _ | ⟨a, _ | ⟨b, l2⟩⟩
    · simp at hl
    · simp at hl
    simp only [List.map_cons, List.cons.injEq] at hl
    exact ⟨b :: a :: l2, List.Perm.swap a b l2, by simp [hl.1, hl.2.1, hl.2.2]⟩
  | trans h1 h2 ih1 ih2 =>
    intro l hl
    obtain ⟨l2, hp2, hM⟩ := ih2 l hl
    obtain ⟨l3, hp3, hL⟩ := ih1 l2 hM
    exact ⟨l3, hp3.trans hp2, hL⟩

theorem exportLine_eq (o : Observation) : exportLine o = renderVals (obsVals o) := by
  simp [exportLine, renderVals, obsVals]

end FigApp

namespace FigApp

/-- C7: for every well-formed CSV input (newline-joined rows of a
canonical calendar-valid date and integer figs/bats/leaves fields),
exporting the result of importing it produces the header followed by a
re-rendering of the same date/figs/bats/leaves values as the original
rows, up to row reordering. -/
theorem C7_roundtrip (idGen : Nat → List Char)
    (rows : List (List Char × List Char × List Char × List Char))
    (h : ∀ x ∈ rows, wfFields x = true) :
    ∃ rows2 : List (List Char × List Char × List Char × List Char),
      rows2.Perm rows ∧
      exportToCSV (importFromCSV idGen (joinNl (rows.map assembleRow))) =
        joinNl (headerChars :: rows2.map (fun x => renderVals (wfVal x))) := by
  have hperm := import_wf_vals idGen h
  obtain ⟨rows2, hp, hL⟩ := perm_map_preimage wfVal hperm rows rfl
  refine ⟨rows2, hp, ?_⟩
  unfold exportToCSV
  have hfun : exportLine = fun o => renderVals (obsVals o) := funext exportLine_eq
  rw [hfun]
  rw [show (importFromCSV idGen (joinNl (rows.map assembleRow))).map
      (fun o => renderVals (obsVals o)) =
      ((importFromCSV idGen (joinNl (rows.map assembleRow))).map obsVals).map renderVals
    from by rw [List.map_map]; rfl]
  rw [hL, List.map_map]
  rfl

/-- C7 (witness): two concrete well-formed rows survive the
import-then-export round trip up to reordering. -/
theorem C7_witness :
    (∀ x ∈ ([("2023-10-01".data, "5".data, "6".data, "7".data),
             ("2023-10-02".data, "1".data, "2".data, "3".data)] :
        List (List Char × List Char × List Char × List Char)), wfFields x = true) ∧
    ∃ rows2 : List (List Char × List Char × List Char × List Char),
      rows2.Perm [("2023-10-01".data, "5".data, "6".data, "7".data),
                  ("2023-10-02".data, "1".data, "2".data, "3".data)] ∧
      exportToCSV (importFromCSV constId
          (joinNl (([("2023-10-01".data, "5".data, "6".data, "7".data),
                     ("2023-10-02".data, "1".data, "2".data, "3".data)] :
              List (List Char × List Char × List Char × List Char)).map assembleRow))) =
        joinNl (headerChars :: rows2.map (fun x => renderVals (wfVal x))) :=
  ⟨by decide,
    C7_roundtrip constId
      [("2023-10-01".data, "5".data, "6".data, "7".data),
       ("2023-10-02".data, "1".data, "2".data, "3".data)] (by decide)⟩

end FigApp

namespace Weather

theorem legParse_nodup {oracle : Query → LegResult}
    (hN : ∀ q l, oracle q = LegResult.ok l → (l.map WeatherData.date).Nodup)
    (q : Query) : ((legParse (oracle q)).map WeatherData.date).Nodup := by
  cases h : oracle q with
  | ok l =>
    have := hN q l h
    simpa [legParse] using this
  | httpError => simp [legParse]
  | netError => simp [legParse]

theorem legParse_dates {oracle : Query → LegResult}
    (hR : ∀ q l, oracle q = LegResult.ok l →
      ∀ w ∈ l, q.startD ≤ w.date ∧ w.date ≤ q.endD)
    (q : Query) : ∀ w ∈ legParse (oracle q), q.startD ≤ w.date ∧ w.date ≤ q.endD := by
  cases h : oracle q with
  | ok l =>
    have := hR q l h
    simpa [legParse] using this
  | httpError => simp [legParse]
  | netError => simp [legParse]

/-- C5 (counterexample): on the straddling range `[90, 99]` with
`today = 100`, when the archive leg returns a day of data and the
forecast leg suffers a transport error, the joint await rejects and the
fetcher returns the empty sequence — not the archive results followed by
the forecast results — so the claim as stated is false. -/
theorem C5_counterexample :
    fetchWeatherHistory archiveDataOracle 100 90 99 = [] ∧
    legParse (archiveDataOracle ⟨Leg.archive, 90, 93⟩) ++
      legParse (archiveDataOracle ⟨Leg.forecast, 94, 99⟩) =
      [⟨90, 0, 0⟩] ∧
    ([] : List WeatherData) ≠ [(⟨90, 0, 0⟩ : WeatherData)] :=
  ⟨by with_unfolding_all rfl, by with_unfolding_all rfl, by decide⟩

/-- C5 (amended): with `cutoff = today - 7`: a range entirely after the
cutoff issues only the forecast query for the full range; a range
entirely at or before the cutoff issues only the archive query; a
straddling range issues the archive query for `[start, cutoff]` and
(`cutoff + 1 ≤ end` always holding there) the forecast query for
`[cutoff+1, end]`, and — provided neither issued leg suffers a transport
error — returns the archive results followed by the forecast results;
under the endpoint contract (returned days lie in the requested range,
no duplicates per response) no date appears twice in the output. -/
theorem C5_amended (today s e : Int) (oracle : Query → LegResult) (hse : s ≤ e)
    (hR : ∀ q l, oracle q = LegResult.ok l →
      ∀ w ∈ l, q.startD ≤ w.date ∧ w.date ≤ q.endD)
    (hN : ∀ q l, oracle q = LegResult.ok l → (l.map WeatherData.date).Nodup) :
    (today - 7 < s →
      queriesIssued today s e = [⟨Leg.forecast, s, e⟩] ∧
      fetchWeatherHistory oracle today s e = legParse (oracle ⟨Leg.forecast, s, e⟩)) ∧
    (e ≤ today - 7 →
      queriesIssued today s e = [⟨Leg.archive, s, e⟩] ∧
      fetchWeatherHistory oracle today s e = legParse (oracle ⟨Leg.archive, s, e⟩)) ∧
    (s ≤ today - 7 → today - 7 < e →
      today - 7 + 1 ≤ e ∧
      queriesIssued today s e =
        [⟨Leg.archive, s, today - 7⟩, ⟨Leg.forecast, today - 7 + 1, e⟩] ∧
      (isNetError (oracle ⟨Leg.archive, s, today - 7⟩) = false →
        isNetError (oracle ⟨Leg.forecast, today - 7 + 1, e⟩) = false →
        fetchWeatherHistory oracle today s e =
          legParse (oracle ⟨Leg.archive, s, today - 7⟩) ++
            legParse (oracle ⟨Leg.forecast, today - 7 + 1, e⟩))) ∧
    ((fetchWeatherHistory oracle today s e).map WeatherData.date).Nodup := by
  refine ⟨?_, ?_, ?_, ?_⟩
  · intro h1
    refine ⟨?_, ?_⟩
    · unfold queriesIssued
      rw [if_pos h1]
    · unfold fetchWeatherHistory
      rw [if_pos h1]
  · intro h2
    have h1 : ¬ today - 7 < s := by omega
    refine ⟨?_, ?_⟩
    · unfold queriesIssued
      rw [if_neg h1, if_pos h2]
    · unfold fetchWeatherHistory
      rw [if_neg h1, if_pos h2]
  · intro ha hb
    have h1 : ¬ today - 7 < s := by omega
    have h2 : ¬ e ≤ today - 7 := by omega
    have h3 : today - 7 + 1 ≤ e := by omega
    refine ⟨h3, ?_, ?_⟩
    · unfold queriesIssued
      rw [if_neg h1, if_neg h2, if_pos h3]
    · intro hA hF
      unfold fetchWeatherHistory
      rw [if_neg h1, if_neg h2]
      dsimp only
      rw [if_pos h3, if_neg (by simp [hA, hF])]
  · unfold fetchWeatherHistory
    by_cases h1 : today - 7 < s
    · rw [if_pos h1]
      exact legParse_nodup hN _
    · rw [if_neg h1]
      by_cases h2 : e ≤ today - 7
      · rw [if_pos h2]
        exact legParse_nodup hN _
      · rw [if_neg h2]
        have h3 : today - 7 + 1 ≤ e := by omega
        dsimp only
        rw [if_pos h3]
        by_cases hnet : (isNetError (oracle ⟨Leg.archive, s, today - 7⟩) ||
            isNetError (oracle ⟨Leg.forecast, today - 7 + 1, e⟩)) = true
        · rw [if_pos hnet]
          simp
        · rw [if_neg hnet]
          rw [List.map_append]
          refine List.Nodup.append (legParse_nodup hN _) (legParse_nodup hN _) ?_
          intro x hxa hxf
          rcases List.mem_map.mp hxa with ⟨w1, hw1, e1⟩
          rcases List.mem_map.mp hxf with ⟨w2, hw2, e2⟩
          have b1 := legParse_dates hR _ w1 hw1
          have b2 := legParse_dates hR _ w2 hw2
          simp only at b1 b2
          rw [← e1] at e2
          rw [show w1.date = w2.date from by rw [e2]] at b1
          omega

/-- C5 (witness): the straddling range `[90, 99]` for `today = 100` with
an oracle answering every query with a non-success status: both queries
are issued for the disjoint subranges, the no-transport-error equation
applies, and the (empty) output has no duplicate dates. -/
theorem C5_witness :
    (90 : Int) ≤ 99 ∧
    ((100 - 7 < (90 : Int) →
      queriesIssued 100 90 99 = [⟨Leg.forecast, 90, 99⟩] ∧
      fetchWeatherHistory errOracle 100 90 99 = legParse (errOracle ⟨Leg.forecast, 90, 99⟩)) ∧
    ((99 : Int) ≤ 100 - 7 →
      queriesIssued 100 90 99 = [⟨Leg.archive, 90, 99⟩] ∧
      fetchWeatherHistory errOracle 100 90 99 = legParse (errOracle ⟨Leg.archive, 90, 99⟩)) ∧
    ((90 : Int) ≤ 100 - 7 → 100 - 7 < (99 : Int) →
      (100 : Int) - 7 + 1 ≤ 99 ∧
      queriesIssued 100 90 99 =
        [⟨Leg.archive, 90, 100 - 7⟩, ⟨Leg.forecast, 100 - 7 + 1, 99⟩] ∧
      (isNetError (errOracle ⟨Leg.archive, 90, 100 - 7⟩) = false →
        isNetError (errOracle ⟨Leg.forecast, 100 - 7 + 1, 99⟩) = false →
        fetchWeatherHistory errOracle 100 90 99 =
          legParse (errOracle ⟨Leg.archive, 90, 100 - 7⟩) ++
            legParse (errOracle ⟨Leg.forecast, 100 - 7 + 1, 99⟩))) ∧
    ((fetchWeatherHistory errOracle 100 90 99).map WeatherData.date).Nodup) :=
  ⟨by norm_num,
    C5_amended 100 90 99 errOracle (by norm_num)
      (fun q l h => by simp [errOracle] at h)
      (fun q l h => by simp [errOracle] at h)⟩

/-- C6 (counterexample): on the straddling range `[90, 99]` with
`today = 100`, a transport error in the archive leg rejects the joint
await and the fetcher returns the empty sequence, discarding the forecast
leg's day of data — so one leg's failure does not leave the other leg's
results intact, refuting the claim as stated. -/
theorem C6_counterexample :
    fetchWeatherHistory forecastDataOracle 100 90 99 = [] ∧
    legParse (forecastDataOracle ⟨Leg.forecast, 94, 99⟩) =
      [⟨94, 0, 0⟩] ∧
    ([] : List WeatherData) ≠ [(⟨94, 0, 0⟩ : WeatherData)] :=
  ⟨by with_unfolding_all rfl, by with_unfolding_all rfl, by decide⟩

/-- C6 (amended): the fetcher never propagates an error — it returns a
list in every combination of leg outcomes.  A non-success HTTP status on
one leg contributes the empty sequence for that leg only, so in the
straddling branch the other leg's results are still returned; but a
transport error in either issued leg rejects the joint await and the
whole fetch returns the empty sequence; total failure yields the empty
sequence. -/
theorem C6_amended (today s e : Int) (oracle : Query → LegResult) (hse : s ≤ e) :
    (legParse LegResult.httpError = [] ∧ legParse LegResult.netError = [] ∧
      ∀ l, legParse (LegResult.ok l) = l) ∧
    (today - 7 < s →
      fetchWeatherHistory oracle today s e = legParse (oracle ⟨Leg.forecast, s, e⟩)) ∧
    (e ≤ today - 7 →
      fetchWeatherHistory oracle today s e = legParse (oracle ⟨Leg.archive, s, e⟩)) ∧
    (s ≤ today - 7 → today - 7 < e →
      (isNetError (oracle ⟨Leg.archive, s, today - 7⟩) = false →
        isNetError (oracle ⟨Leg.forecast, today - 7 + 1, e⟩) = false →
        fetchWeatherHistory oracle today s e =
          legParse (oracle ⟨Leg.archive, s, today - 7⟩) ++
            legParse (oracle ⟨Leg.forecast, today - 7 + 1, e⟩)) ∧
      (isNetError (oracle ⟨Leg.archive, s, today - 7⟩) = true ∨
        isNetError (oracle ⟨Leg.forecast, today - 7 + 1, e⟩) = true →
        fetchWeatherHistory oracle today s e = [])) := by
  refine ⟨⟨rfl, rfl, fun l => rfl⟩, ?_, ?_, ?_⟩
  · intro h1
    unfold fetchWeatherHistory
    rw [if_pos h1]
  · intro h2
    have h1 : ¬ today - 7 < s := by omega
    unfold fetchWeatherHistory
    rw [if_neg h1, if_pos h2]
  · intro ha hb
    have h1 : ¬ today - 7 < s := by omega
    have h2 : ¬ e ≤ today - 7 := by omega
    have h3 : today - 7 + 1 ≤ e := by omega
    constructor
    · intro hA hF
      unfold fetchWeatherHistory
      rw [if_neg h1, if_neg h2]
      dsimp only
      rw [if_pos h3, if_neg (by simp [hA, hF])]
    · intro hor
      unfold fetchWeatherHistory
      rw [if_neg h1, if_neg h2]
      dsimp only
      rw [if_pos h3, if_pos (by rcases hor with h | h <;> simp [h])]

/-- C6 (witness): on the straddling range `[90, 99]` for `today = 100`
with a non-success archive leg and a forecast leg carrying one day of
data, the fetcher returns exactly the forecast leg's data. -/
theorem C6_witness :
    (90 : Int) ≤ 99 ∧
    ((legParse LegResult.httpError = [] ∧ legParse LegResult.netError = [] ∧
      ∀ l, legParse (LegResult.ok l) = l) ∧
    (100 - 7 < (90 : Int) →
      fetchWeatherHistory mixedOracle 100 90 99 = legParse (mixedOracle ⟨Leg.forecast, 90, 99⟩)) ∧
    ((99 : Int) ≤ 100 - 7 →
      fetchWeatherHistory mixedOracle 100 90 99 = legParse (mixedOracle ⟨Leg.archive, 90, 99⟩)) ∧
    ((90 : Int) ≤ 100 - 7 → 100 - 7 < (99 : Int) →
      (isNetError (mixedOracle ⟨Leg.archive, 90, 100 - 7⟩) = false →
        isNetError (mixedOracle ⟨Leg.forecast, 100 - 7 + 1, 99⟩) = false →
        fetchWeatherHistory mixedOracle 100 90 99 =
          legParse (mixedOracle ⟨Leg.archive, 90, 100 - 7⟩) ++
            legParse (mixedOracle ⟨Leg.forecast, 100 - 7 + 1, 99⟩)) ∧
      (isNetError (mixedOracle ⟨Leg.archive, 90, 100 - 7⟩) = true ∨
        isNetError (mixedOracle ⟨Leg.forecast, 100 - 7 + 1, 99⟩) = true →
        fetchWeatherHistory mixedOracle 100 90 99 = []))) :=
  ⟨by norm_num, C6_amended 100 90 99 mixedOracle (by norm_num)⟩

end Weather
